import Mathlib

/-!
Verification of the Chess2Pgn OCR-to-legal-move reconciliation engine

Shallow embedding of the move extraction and OCR-correction code of the
Chess2Pgn repository:

* `chess-validator.js` (the Lambda validator module): `extractMoveNotation`,
  `generateFuzzyMatches`, `validateMove`, `fuzzyMatchMove`,
  `extractMovesFromBlocks`, `correctOCRErrors`;
* `src/lib/pgn/parser.ts`: `extractMovesFromTable`.

The chess rules library (`chess.js`) is external to the repository and is
modelled as an abstract Rules Oracle with `applyMove` (pure: `none` on an
illegal / unparsable move, mirroring a caught exception or `null` result)
and `moves` (legal-move enumeration).  JavaScript strings are `String`,
manipulated as `List Char`; the concrete regular expressions of the source
are implemented character by character with JavaScript matching semantics
(leftmost match, greedy quantifiers with backtracking, `/g` non-overlapping
global scan, `/i` case folding).
-/

namespace Chess2Pgn

/-! ## Character classes used by the source regular expressions -/

/-- JavaScript `\d`. -/
def isDigitC (c : Char) : Bool := '0' ≤ c && c ≤ '9'

/-- JavaScript `\s` (ASCII part; the inputs handled here are ASCII). -/
def isSpaceC (c : Char) : Bool :=
  c = ' ' || c = '\t' || c = '\n' || c = '\r' || c = '\x0b' || c = '\x0c'

/-- The character class `[a-h1-8NBRQKx=+#O-]` of the move patterns, with the
`/i` flag (case-insensitive): also matches `A`-`H`, `n b r q k x o`. -/
def isMoveCharCI (c : Char) : Bool :=
  ('a' ≤ c.toLower && c.toLower ≤ 'h') || ('1' ≤ c && c ≤ '8') ||
  c.toLower = 'n' || c.toLower = 'r' || c.toLower = 'q' || c.toLower = 'k' ||
  c.toLower = 'x' || c.toLower = 'o' || c = '=' || c = '+' || c = '#' || c = '-'

/-- The same class `[a-h1-8NBRQKx=+#O-]` without the `/i` flag, as used by the
case-sensitive membership test in `extractMovesFromBlocks`. -/
def isMoveCharCS (c : Char) : Bool :=
  ('a' ≤ c && c ≤ 'h') || ('1' ≤ c && c ≤ '8') ||
  c = 'N' || c = 'B' || c = 'R' || c = 'Q' || c = 'K' ||
  c = 'x' || c = '=' || c = '+' || c = '#' || c = 'O' || c = '-'

/-- JavaScript word character `\w` = `[A-Za-z0-9_]`, for `\b` boundaries. -/
def isWordC (c : Char) : Bool :=
  ('a' ≤ c && c ≤ 'z') || ('A' ≤ c && c ≤ 'Z') || ('0' ≤ c && c ≤ '9') || c = '_'

/-! ## Generic string (list of characters) utilities -/

/-- Model of `String.prototype.trim()`. -/
def trimChars (l : List Char) : List Char :=
  ((l.dropWhile isSpaceC).reverse.dropWhile isSpaceC).reverse

/-- Worker for `wordsWs`: `acc` holds the characters of the current word in
reverse order. -/
def wordsWsAux : List Char → List Char → List (List Char)
  | [], acc => if acc = [] then [] else [acc.reverse]
  | c :: t, acc =>
    if isSpaceC c then
      if acc = [] then wordsWsAux t [] else acc.reverse :: wordsWsAux t []
    else wordsWsAux t (c :: acc)

/-- Model of `split(/\s+/)` restricted to its use sites: the source always splits a
trimmed string and (where it matters) filters out empty parts, so this returns
the maximal whitespace-free words in order, with no empty parts. -/
def wordsWs (l : List Char) : List (List Char) := wordsWsAux l []

/-! ## `replace(/^\d+\.?\s*/, '')` and `extractMoveNotation`

`extractMoveNotation` (chess-validator.js): strip a leading move number,
trim, split on whitespace and keep the first word (`parts[0] || cleaned`). -/

/-- After the digits of `^\d+`: consume an optional `.` and any whitespace. -/
def stripAfterDigits (r : List Char) : List Char :=
  match r with
  | '.' :: r' => r'.dropWhile isSpaceC
  | r => r.dropWhile isSpaceC

/-- Model of `s.replace(/^\d+\.?\s*/, '')`: if the string starts with one or more
digits, remove them together with an optional following dot and any following
whitespace; otherwise leave the string unchanged. -/
def stripLeadingNum (l : List Char) : List Char :=
  if (l.takeWhile isDigitC) = [] then l
  else stripAfterDigits (l.dropWhile isDigitC)

/-- Model of `extractMoveNotation` on character lists. -/
def extractMoveNotationL (l : List Char) : List Char :=
  let cleaned := trimChars (stripLeadingNum l)
  match wordsWs cleaned with
  | [] => cleaned
  | w :: _ => w

/-- Model of `extractMoveNotation(text)` from chess-validator.js. -/
def extractMoveNotation (text : String) : String :=
  ⟨extractMoveNotationL text.data⟩

/-! ## The numbered-move pattern `/(\d+\.?\s*[a-h1-8NBRQKx=+#O-]+\s*[a-h1-8NBRQKx=+#O-]*)/gi`

The pattern is implemented with JavaScript semantics: at a given position,
`\d+` first takes the maximal digit run and gives digits back one at a time
(from the right) when the rest of the pattern cannot match; `\.?` and each
`\s*`/class quantifier commit greedily (no further backtracking is possible
for them because the dot, whitespace and the move-character class are
pairwise disjoint). -/

/-- The suffix `\s*[class]+\s*[class]*` of the numbered-move pattern.  Fails
when no class character follows the leading whitespace; otherwise returns the
greedily matched characters and the rest of the input.  All four quantifiers
commit greedily: whitespace and the move-character class are disjoint, so no
backtracking into them can ever extend a match. -/
def wsClsTail (r : List Char) : Option (List Char × List Char) :=
  let ws1 := r.takeWhile isSpaceC
  let r1 := r.dropWhile isSpaceC
  let cls1 := r1.takeWhile isMoveCharCI
  let r2 := r1.dropWhile isMoveCharCI
  if cls1 = [] then none
  else
    let ws2 := r2.takeWhile isSpaceC
    let r3 := r2.dropWhile isSpaceC
    let cls2 := r3.takeWhile isMoveCharCI
    let r4 := r3.dropWhile isMoveCharCI
    some (ws1 ++ cls1 ++ (ws2 ++ cls2), r4)

/-- Continuation `\.?\s*[class]+\s*[class]*` after the digits.  `\.?` commits
greedily: when the dot is present but the rest fails, retrying without the
dot also fails, because '.' is neither whitespace nor a move character. -/
def contAfterDigits (r : List Char) : Option (List Char × List Char) :=
  match r with
  | '.' :: r' =>
    match wsClsTail r' with
    | some (mc, rst) => some ('.' :: mc, rst)
    | none => none
  | _ => wsClsTail r

/-- Backtracking over `\d+`: `rds` is the reversed list of digits currently
consumed by `\d+`; on failure of the continuation the rightmost digit is
given back (but `\d+` must keep at least one digit). -/
def tryDigitsRev (rds rest : List Char) : Option (List Char × List Char) :=
  match rds with
  | [] => none -- unreachable: `\d+` always owns at least one digit
  | [d] =>
    match contAfterDigits rest with
    | some (mc, r) => some ([d] ++ mc, r)
    | none => none
  | d :: e :: rds' =>
    match contAfterDigits rest with
    | some (mc, r) => some ((d :: e :: rds').reverse ++ mc, r)
    | none => tryDigitsRev (e :: rds') (d :: rest)

/-- Try to match the numbered-move pattern at the start of `s`. -/
def matchNumAt (s : List Char) : Option (List Char × List Char) :=
  let ds := s.takeWhile isDigitC
  if ds = [] then none
  else tryDigitsRev ds.reverse (s.dropWhile isDigitC)

/-- Global scan of `/(\d+\.?\s*[class]+\s*[class]*)/g` over a string:
collect non-overlapping matches left to right, advancing one character when
no match starts at the current position.  `fuel` only forces termination:
every step consumes at least one character (a match is non-empty), so
`s.length + 1` units never run out. -/
def scanNumberedFuel : Nat → List Char → List (List Char)
  | 0, _ => []
  | _ + 1, [] => [] -- `matchNumAt []` is `none`: no match in the empty string
  | fuel + 1, c :: t =>
    match matchNumAt (c :: t) with
    | some (m, r) => m :: scanNumberedFuel fuel r
    | none => scanNumberedFuel fuel t

/-- Model of `rowText.match(/(\d+\.?\s*[a-h1-8NBRQKx=+#O-]+\s*[a-h1-8NBRQKx=+#O-]*)/gi)`
(an empty result list plays the role of a `null` return). -/
def scanNumbered (s : List Char) : List (List Char) :=
  scanNumberedFuel (s.length + 1) s

/-! ## Textract blocks and the Lambda move extractor (`extractMovesFromBlocks`) -/

/-- A Textract block, with the fields the extractors read.  Optional fields
model JavaScript `undefined`. -/
structure Block where
  BlockType : String
  Text : Option String := none
  RowIndex : Option Nat := none
  ColumnIndex : Option Nat := none
deriving DecidableEq

/-- Model of `block.RowIndex || 0`. -/
def rowIdx (b : Block) : Nat := b.RowIndex.getD 0

/-- Model of `block.ColumnIndex || 0`. -/
def colIdx (b : Block) : Nat := b.ColumnIndex.getD 0

/-- The cell filter of `extractMovesFromBlocks`:
`block.BlockType === 'CELL' && block.Text && block.RowIndex !== undefined &&
block.RowIndex > 0` (an empty `Text` string is falsy). -/
def cellFilterB (b : Block) : Bool :=
  b.BlockType = "CELL" &&
  (match b.Text with | some t => t ≠ "" | none => false) &&
  (match b.RowIndex with | some i => decide (0 < i) | none => false)

/-- Insert a key into an ascending list of distinct keys.  Collecting the
row indices this way models a JavaScript object with integer-like keys:
`Object.values` enumerates them in ascending numeric order. -/
def insertKey (k : Nat) : List Nat → List Nat
  | [] => [k]
  | x :: xs =>
    if k < x then k :: x :: xs
    else if k = x then x :: xs
    else x :: insertKey k xs

/-- The distinct row indices of the cells, in ascending order. -/
def rowKeys (cells : List Block) : List Nat :=
  cells.foldl (fun ks c => insertKey (rowIdx c) ks) []

/-- Stable insertion by `ColumnIndex`: an element is placed after all
existing elements of smaller-or-equal key, modelling the stable JavaScript
`sort((a, b) => (a.ColumnIndex || 0) - (b.ColumnIndex || 0))`. -/
def insertByCol (b : Block) : List Block → List Block
  | [] => [b]
  | x :: xs => if colIdx b < colIdx x then b :: x :: xs else x :: insertByCol b xs

/-- Stable sort by `ColumnIndex` (insertion sort). -/
def sortByCol (l : List Block) : List Block := l.foldr insertByCol []

/-- Model of `Array.prototype.join(' ')`. -/
def joinSpace : List (List Char) → List Char
  | [] => []
  | [x] => x
  | x :: xs => x ++ ' ' :: joinSpace xs

/-- Model of `/\d+\./.test(part)`: some digit immediately followed by a dot. -/
def hasDigitDot : List Char → Bool
  | [] => false
  | [_] => false
  | a :: b :: t => (isDigitC a && b = '.') || hasDigitDot (b :: t)

/-- Model of `/[a-h1-8NBRQKx=+#O-]/.test(part)` (no `/i` flag here). -/
def hasMoveCharCS (l : List Char) : Bool := l.any isMoveCharCS

/-- Processing of one numbered-pattern match inside `extractMovesFromBlocks`:
trim it; if it still contains a (literal) space, split on whitespace and keep
the parts that contain a digit-dot or a move character; otherwise emit the
trimmed match as a single token.  Note that no move-number prefix is
stripped here. -/
def blocksMatchTokens (m : List Char) : List (List Char) :=
  let cleaned := trimChars m
  if cleaned.contains ' ' then
    (wordsWs cleaned).filter (fun p => hasDigitDot p || hasMoveCharCS p)
  else [cleaned]

/-- Model of `extractMovesFromBlocks` (chess-validator.js) on character lists:
filter the cell blocks, group them by row in ascending row order, sort each
row by column, join the row's cell texts with spaces, run the numbered-move
pattern over the row text and process every match. -/
def extractMovesFromBlocksL (blocks : List Block) : List (List Char) :=
  let cellBlocks := blocks.filter cellFilterB
  (rowKeys cellBlocks).flatMap (fun k =>
    let rowCells := sortByCol (cellBlocks.filter (fun c => rowIdx c = k))
    let rowText := trimChars (joinSpace (rowCells.map (fun c => (c.Text.getD "").data)))
    (scanNumbered rowText).flatMap blocksMatchTokens)

/-- Model of `extractMovesFromBlocks(blocks)`; the `Option` on the argument models the
`(blocks || [])` guard. -/
def extractMovesFromBlocks (blocks : Option (List Block)) : List String :=
  (extractMovesFromBlocksL (blocks.getD [])).map (fun l => (⟨l⟩ : String))

/-! ## The Rules Oracle

`chess.js` is an external dependency of the repository (spec §6): the engine
only calls `board.move(notation)` (modelled by `applyMove`; `none` stands for
a thrown exception or `null` result, and the board is unchanged on failure)
and `board.moves()` (`moves`).  The pattern stage's trial on a fresh board
reconstructed with `loadPgn(board.pgn())` is the same pure `applyMove`. -/

structure Oracle (β : Type) where
  /-- Model of `new Chess()`: the initial position. -/
  init : β
  /-- Model of `board.move(text)`, made pure: the successor board on success. -/
  applyMove : β → String → Option β
  /-- Model of `board.moves()`: the legal moves in oracle enumeration order. -/
  moves : β → List String

/-! ## Levenshtein distance (`fast-levenshtein`) -/

/-- Levenshtein distance with explicit fuel (insert/delete/substitute, each
of cost 1).  Every recursive call shortens the combined input, so
`xs.length + ys.length + 1` units of fuel never run out. -/
def levFuel : Nat → List Char → List Char → Nat
  | 0, xs, ys => xs.length + ys.length
  | _ + 1, [], ys => ys.length
  | _ + 1, x :: xs, [] => (x :: xs).length
  | f + 1, x :: xs, y :: ys =>
    if x = y then levFuel f xs ys
    else 1 + min (levFuel f xs ys) (min (levFuel f (x :: xs) ys) (levFuel f xs (y :: ys)))

/-- Model of `levenshtein.get` on character lists. -/
def levL (xs ys : List Char) : Nat := levFuel (xs.length + ys.length + 1) xs ys

/-! ## `generateFuzzyMatches` (chess-validator.js) -/

/-- The `OCR_SUBSTITUTIONS` table. -/
def ocrSubs (c : Char) : List Char :=
  if c = 'H' then ['4'] else if c = 'h' then ['4'] else if c = 'b' then ['6']
  else if c = 'l' then ['1'] else if c = 'o' then ['0'] else if c = 'O' then ['0']
  else if c = 'I' then ['1'] else if c = 'S' then ['5'] else if c = 'Z' then ['2']
  else if c = 'G' then ['6'] else []

/-- Model of `Set.add`: JavaScript sets keep insertion order and drop duplicates. -/
def insertUnique (l : List (List Char)) (x : List Char) : List (List Char) :=
  if x ∈ l then l else l ++ [x]

/-- Model of `move.substring(0, i) + replacement + move.substring(i + 1)`. -/
def setCharAt (l : List Char) (i : Nat) (r : Char) : List Char :=
  l.take i ++ [r] ++ l.drop (i + 1)

/-- Case-insensitive character comparison (the `/i` flag). -/
def ciEqC (a b : Char) : Bool := a.toLower = b.toLower

/-- Does the literal pattern `pat` match at the start of `s`? -/
def litAt (ci : Bool) : List Char → List Char → Bool
  | [], _ => true
  | _ :: _, [] => false
  | p :: ps, c :: cs => (if ci then ciEqC p c else p = c) && litAt ci ps cs

/-- Model of `pattern.test(s)` for a literal pattern. -/
def containsLit (ci : Bool) (pat : List Char) : List Char → Bool
  | [] => litAt ci pat []
  | c :: t => litAt ci pat (c :: t) || containsLit ci pat t

/-- Model of `s.replace(pattern, repl)` without the `g` flag: replace the leftmost
occurrence only. -/
def replaceFirst (ci : Bool) (pat repl : List Char) : List Char → List Char
  | [] => []
  | c :: t =>
    if litAt ci pat (c :: t) then repl ++ (c :: t).drop pat.length
    else c :: replaceFirst ci pat repl t

/-- Model of `s.replace(pattern, repl)` with the `g` flag: replace all non-overlapping
leftmost occurrences.  `fuel` only forces termination (the patterns used are
non-empty, so each step consumes at least one character). -/
def replaceAllFuel : Nat → Bool → List Char → List Char → List Char → List Char
  | 0, _, _, _, s => s
  | _ + 1, _, _, _, [] => []
  | f + 1, ci, pat, repl, c :: t =>
    if litAt ci pat (c :: t) then
      repl ++ replaceAllFuel f ci pat repl ((c :: t).drop pat.length)
    else c :: replaceAllFuel f ci pat repl t

def replaceAllL (ci : Bool) (pat repl s : List Char) : List Char :=
  replaceAllFuel (s.length + 1) ci pat repl s

/-- The `castlingPatterns` table: (case-insensitive?, global?, pattern,
replacement), in source order.  (`/0-0-0/g → '0-0-0'` is an identity
rewrite, faithfully included.) -/
def castlingList : List (Bool × Bool × List Char × List Char) :=
  [ (true, false, "o-o".data, "0-0".data),
    (false, true, "O-O".data, "0-0".data),
    (false, true, "0-0-0".data, "0-0-0".data),
    (true, false, "o-o-o".data, "0-0-0".data),
    (false, true, "00".data, "0-0".data),
    (false, true, "000".data, "0-0-0".data) ]

/-- One castling rewrite, `move.replace(pattern, replacement)`. -/
def applyCastling (ci glob : Bool) (pat repl s : List Char) : List Char :=
  if glob then replaceAllL ci pat repl s else replaceFirst ci pat repl s

/-- Model of `generateFuzzyMatches` on character lists: the original move, then the
single-character OCR substitutions in index order, then the castling
rewrites, collected as a JavaScript `Set` (insertion order, duplicates
dropped). -/
def gfmL (mv : List Char) : List (List Char) :=
  let cands1 := (List.range mv.length).foldl (fun cs i =>
    (ocrSubs (mv.getD i ' ')).foldl
      (fun cs2 rep => insertUnique cs2 (setCharAt mv i rep)) cs) [mv]
  castlingList.foldl (fun cs q =>
    match q with
    | (ci, glob, pat, repl) =>
      if containsLit ci pat mv then insertUnique cs (applyCastling ci glob pat repl mv)
      else cs) cands1

/-- Model of `generateFuzzyMatches(move)` from chess-validator.js. -/
def generateFuzzyMatches (move : String) : List String :=
  (gfmL move.data).map (fun l => (⟨l⟩ : String))

/-! ## `validateMove` and `fuzzyMatchMove` (chess-validator.js) -/

/-- Result of `validateMove`, with the (possibly advanced) board made
explicit: `board.move` mutates the board on success. -/
structure VMResult (β : Type) where
  valid : Bool
  move : String
  board : β
deriving DecidableEq

/-- Model of `validateMove(board, moveText)`: normalize (again) and try the move
as-is; on failure the board is unchanged and the raw `moveText` is
reported back. -/
def validateMove {β : Type} (O : Oracle β) (b : β) (moveText : String) : VMResult β :=
  match O.applyMove b (extractMoveNotation moveText) with
  | some b' => ⟨true, extractMoveNotation moveText, b'⟩
  | none => ⟨false, moveText, b⟩

/-- The pattern-stage loop over the fuzzy candidates: skip the candidate
equal to the normalized move (already tried), trial-apply each other
candidate (on a throwaway copy), and commit the first success. -/
def tryCandidates {β : Type} (O : Oracle β) (b : β) (mn : String) :
    List String → Option (String × β)
  | [] => none
  | c :: cs =>
    if c = mn then tryCandidates O b mn cs
    else
      match O.applyMove b c with
      | some b' => some (c, b')
      | none => tryCandidates O b mn cs

/-- One iteration of the Levenshtein loop:
`if (dist < lowestDistance && dist <= MAX_DISTANCE_THRESHOLD) { update }`
with `MAX_DISTANCE_THRESHOLD = 2`. -/
def levScanStep (n : List Char) (acc : Option String × Nat) (mv : String) :
    Option String × Nat :=
  let d := levL n mv.data
  if d < acc.2 ∧ d ≤ 2 then (some mv, d) else acc

/-- The Levenshtein loop over all legal moves, starting from
`bestMatch = null, lowestDistance = 99`. -/
def levScan (n : List Char) (ms : List String) : Option String × Nat :=
  ms.foldl (levScanStep n) (none, 99)

/-- The Levenshtein loop instrumented with a counter of
`levenshtein.get` invocations: the loop body computes the distance once per
legal move, unconditionally. -/
def levScanInstr (n : List Char) (ms : List String) :
    (Option String × Nat) × Nat :=
  ms.foldl (fun acc mv => (levScanStep n acc.1 mv, acc.2 + 1)) ((none, 99), 0)

/-- Result object of `fuzzyMatchMove`, with the (possibly advanced) board
made explicit.  Absent JavaScript fields are `none`. -/
structure FMResult (β : Type) where
  valid : Bool
  move : String
  corrected : Bool
  original : String
  correction : Option String := none
  method : Option String := none
  distance : Option Nat := none
  error : Option String := none
  board : β
deriving DecidableEq

/-- Model of `fuzzyMatchMove(board, invalidMove)`: direct validation, then the
pattern stage, then the Levenshtein stage over the legal moves of the
current position. -/
def fuzzyMatchMove {β : Type} (O : Oracle β) (b : β) (invalidMove : String) :
    FMResult β :=
  let mn := extractMoveNotation invalidMove
  let direct := validateMove O b mn
  if direct.valid then
    { valid := true, move := direct.move, corrected := false,
      original := invalidMove, board := direct.board }
  else
    match tryCandidates O b mn (generateFuzzyMatches mn) with
    | some (cand, b') =>
      { valid := true, move := cand, corrected := true, original := invalidMove,
        correction := some (mn ++ " → " ++ cand), method := some "pattern-based",
        board := b' }
    | none =>
      if O.moves b = [] then
        { valid := false, move := mn, corrected := false, original := invalidMove,
          error := some "No legal moves available", board := b }
      else
        match levScan mn.data (O.moves b) with
        | (some best, lowest) =>
          match O.applyMove b best with
          | some b' =>
            { valid := true, move := best, corrected := true,
              original := invalidMove, correction := some (mn ++ " → " ++ best),
              method := some "levenshtein", distance := some lowest, board := b' }
          | none =>
            { valid := false, move := mn, corrected := false,
              original := invalidMove,
              error := some "No valid move found after fuzzy matching", board := b }
        | (none, _) =>
          { valid := false, move := mn, corrected := false,
            original := invalidMove,
            error := some "No valid move found after fuzzy matching", board := b }

/-! ## `correctOCRErrors` (chess-validator.js) -/

/-- One entry of the `corrections` audit list. -/
structure Correction where
  original : String
  corrected : Option String
  correction : Option String := none
  error : Option String := none
deriving DecidableEq

structure Stats where
  total : Nat
  valid : Nat
  corrected : Nat
  invalid : Nat
deriving DecidableEq

/-- The loop state of `correctOCRErrors`: the board plus the accumulated
`correctedMoves`, `corrections` and counters. -/
structure RunState (β : Type) where
  board : β
  moves : List String
  corrs : List Correction
  valid : Nat
  corrected : Nat
  invalid : Nat
deriving DecidableEq

/-- The body of the `for (const originalMove of originalMoves)` loop. -/
def runStep {β : Type} (O : Oracle β) (st : RunState β) (mv : String) :
    RunState β :=
  let r := fuzzyMatchMove O st.board mv
  if r.valid then
    if r.corrected then
      { board := r.board, moves := st.moves ++ [r.move],
        corrs := st.corrs ++
          [{ original := r.original, corrected := some r.move, correction := r.correction }],
        valid := st.valid, corrected := st.corrected + 1,
        invalid := st.invalid }
    else
      { board := r.board, moves := st.moves ++ [r.move], corrs := st.corrs,
        valid := st.valid + 1, corrected := st.corrected,
        invalid := st.invalid }
  else
    { board := r.board, moves := st.moves ++ [r.move],
      corrs := st.corrs ++
        [{ original := r.original, corrected := none, error := some (r.error.getD "Invalid move") }],
      valid := st.valid, corrected := st.corrected,
      invalid := st.invalid + 1 }

/-- The aggregate result of `correctOCRErrors`. -/
structure OCRResult where
  originalMoves : List String
  correctedMoves : List String
  corrections : List Correction
  stats : Stats
deriving DecidableEq

/-- Model of `correctOCRErrors(blocks)`: extract the tokens, then replay them left to
right from the oracle's initial position. -/
def correctOCRErrors {β : Type} (O : Oracle β) (blocks : Option (List Block)) :
    OCRResult :=
  let original := extractMovesFromBlocks blocks
  let final := original.foldl (runStep O) ⟨O.init, [], [], 0, 0, 0⟩
  { originalMoves := original, correctedMoves := final.moves,
    corrections := final.corrs,
    stats :=
      { total := original.length, valid := final.valid, corrected := final.corrected, invalid := final.invalid } }

/-! ## The standalone-move pattern of parser.ts

`/\\b([a-h][1-8](?:x[a-h][1-8])?[+#=]?|O-O(?:-O)?|0-0(?:-0)?|[NBRQK][a-h1-8]?x?[a-h][1-8](?:x[a-h][1-8])?[+#=]?|[a-h]x[a-h][1-8][+#=]?)\\b/gi`

Implemented as a small list-of-parses combinator layer: a parser returns
every way to match a prefix of the input, in JavaScript backtracking
priority order (ordered alternation; greedy option: "take" before "skip").
The first parse that also satisfies the trailing `\b` wins. -/

/-- Parses of a single character satisfying `p`. -/
def pPred (p : Char → Bool) (s : List Char) : List (List Char × List Char) :=
  match s with
  | c :: r => if p c then [([c], r)] else []
  | [] => []

/-- Parses of a case-insensitive literal. -/
def pLitCI (lit : List Char) (s : List Char) : List (List Char × List Char) :=
  if litAt true lit s then [(s.take lit.length, s.drop lit.length)] else []

/-- Sequencing, in priority order. -/
def pSeq (a b : List Char → List (List Char × List Char)) (s : List Char) :
    List (List Char × List Char) :=
  (a s).flatMap (fun q => (b q.2).map (fun w => (q.1 ++ w.1, w.2)))

/-- Model of `(...)?`: take the group first, then skip it. -/
def pOpt (a : List Char → List (List Char × List Char)) (s : List Char) :
    List (List Char × List Char) :=
  a s ++ [([], s)]

/-- Ordered alternation. -/
def pAlt (a b : List Char → List (List Char × List Char)) (s : List Char) :
    List (List Char × List Char) :=
  a s ++ b s

/-- Model of `[a-h]` with `/i`. -/
def clAH (c : Char) : Bool := 'a' ≤ c.toLower && c.toLower ≤ 'h'

/-- Model of `[1-8]`. -/
def cl18 (c : Char) : Bool := '1' ≤ c && c ≤ '8'

/-- Model of `[a-h1-8]` with `/i`. -/
def clAH18 (c : Char) : Bool := clAH c || cl18 c

/-- Model of `[NBRQK]` with `/i`. -/
def clPiece (c : Char) : Bool :=
  c.toLower = 'n' || c.toLower = 'b' || c.toLower = 'r' || c.toLower = 'q' || c.toLower = 'k'

/-- Model of `[+#=]`. -/
def clSym (c : Char) : Bool := c = '+' || c = '#' || c = '='

/-- Model of `x` with `/i`. -/
def chX (c : Char) : Bool := c.toLower = 'x'

/-- Model of `[a-h][1-8](?:x[a-h][1-8])?[+#=]?`. -/
def altPawn : List Char → List (List Char × List Char) :=
  pSeq (pPred clAH) (pSeq (pPred cl18)
    (pSeq (pOpt (pSeq (pPred chX) (pSeq (pPred clAH) (pPred cl18))))
      (pOpt (pPred clSym))))

/-- Model of `O-O(?:-O)?`. -/
def altOO : List Char → List (List Char × List Char) :=
  pSeq (pLitCI "O-O".data) (pOpt (pLitCI "-O".data))

/-- Model of `0-0(?:-0)?`. -/
def altZeroO : List Char → List (List Char × List Char) :=
  pSeq (pLitCI "0-0".data) (pOpt (pLitCI "-0".data))

/-- Model of `[NBRQK][a-h1-8]?x?[a-h][1-8](?:x[a-h][1-8])?[+#=]?`. -/
def altPiece : List Char → List (List Char × List Char) :=
  pSeq (pPred clPiece) (pSeq (pOpt (pPred clAH18)) (pSeq (pOpt (pPred chX))
    (pSeq (pPred clAH) (pSeq (pPred cl18)
      (pSeq (pOpt (pSeq (pPred chX) (pSeq (pPred clAH) (pPred cl18))))
        (pOpt (pPred clSym)))))))

/-- Model of `[a-h]x[a-h][1-8][+#=]?`. -/
def altCapture : List Char → List (List Char × List Char) :=
  pSeq (pPred clAH) (pSeq (pPred chX) (pSeq (pPred clAH) (pSeq (pPred cl18)
    (pOpt (pPred clSym)))))

/-- The bracketed group: the five alternatives in source order. -/
def standaloneGroup : List Char → List (List Char × List Char) :=
  pAlt altPawn (pAlt altOO (pAlt altZeroO (pAlt altPiece altCapture)))

/-- Model of `\b` between two (possibly absent) adjacent characters: exactly one of
them is a word character. -/
def wordBoundary (a b : Option Char) : Bool :=
  (match a with | some c => isWordC c | none => false) !=
  (match b with | some c => isWordC c | none => false)

/-- The first parse whose end also sits on a `\b` boundary. -/
def firstBoundaryOK : List (List Char × List Char) → Option (List Char × List Char)
  | [] => none
  | q :: qs => if wordBoundary q.1.getLast? q.2.head? then some q else firstBoundaryOK qs

/-- Match the standalone pattern at the current position, `prev` being the
character just before it (for the leading `\b`). -/
def matchStandaloneAt (prev : Option Char) (s : List Char) :
    Option (List Char × List Char) :=
  if wordBoundary prev s.head? then firstBoundaryOK (standaloneGroup s) else none

/-- Global scan for the standalone pattern; `fuel` only forces termination
(every alternative consumes at least two characters). -/
def scanStandaloneFuel : Nat → Option Char → List Char → List (List Char)
  | 0, _, _ => []
  | _ + 1, _, [] => []
  | f + 1, prev, c :: t =>
    match matchStandaloneAt prev (c :: t) with
    | some (m, r) => m :: scanStandaloneFuel f m.getLast? r
    | none => scanStandaloneFuel f (some c) t

/-- Model of `text.match(movePatternStandalone)` (`/gi`). -/
def scanStandalone (s : List Char) : List (List Char) :=
  scanStandaloneFuel (s.length + 1) none s

/-! ## `extractMovesFromTable` (src/lib/pgn/parser.ts) -/

/-- The header-word list of `headerPatterns`. -/
def headerWords : List (List Char) :=
  ["move".data, "round".data, "white".data, "black".data, "result".data,
   "date".data, "event".data, "tournament".data, "site".data, "player".data]

/-- Model of `isHeaderCell(text)`: one of the three header patterns matches the
trimmed text — `/^(move|round|...)/i`, `/^\d+\s*$/`, `/^[-=\s]+$/`. -/
def isHeaderCell (text : List Char) : Bool :=
  let t := trimChars text
  headerWords.any (fun hw => litAt true hw t) ||
  (!(t.takeWhile isDigitC).isEmpty && (t.dropWhile isDigitC).all isSpaceC) ||
  (!t.isEmpty && t.all (fun c => c = '-' || c = '=' || isSpaceC c))

/-- Model of `/^\d+$/.test(cellText)`. -/
def fullDigits (t : List Char) : Bool := !t.isEmpty && t.all isDigitC

/-- Processing of one numbered-pattern match in parser.ts:
`match.replace(/^\d+\.?\s*/, '').trim().split(/\s+/).filter(p => p.length > 0)`
— here the move-number prefix IS stripped before splitting. -/
def numberedParts (m : List Char) : List (List Char) :=
  (wordsWs (trimChars (stripLeadingNum m))).filter (fun p => p.length > 0)

/-- The `validMoves` filter applied to standalone matches of one cell
(case-sensitive start-of-token checks). -/
def cellStandaloneOK (m : List Char) : Bool :=
  let t := trimChars m
  decide (t.length ≥ 2) &&
  ((match t with | a :: b :: _ => ('a' ≤ a && a ≤ 'h') && ('1' ≤ b && b ≤ '8') | _ => false) ||
   (match t with | a :: _ => a = 'N' || a = 'B' || a = 'R' || a = 'Q' || a = 'K' | _ => false) ||
   litAt false "O-O".data t ||
   (match t with | a :: b :: _ => ('a' ≤ a && a ≤ 'h') && b = 'x' | _ => false))

/-- The per-cell fallback of `extractMovesFromTable`. -/
def processCell (cell : Block) : List (List Char) :=
  let cellText := trimChars (cell.Text.getD "").data
  if cellText.isEmpty then []
  else if isHeaderCell cellText then []
  else if fullDigits cellText then [] -- skip bare move-number cells
  else
    let cn := scanNumbered cellText
    if !cn.isEmpty then cn.flatMap numberedParts
    else
      let cs := scanStandalone cellText
      if !cs.isEmpty then
        let valid := cs.filter cellStandaloneOK
        if !valid.isEmpty then valid.map trimChars else []
      else []

/-- The body of the row loop of `extractMovesFromTable`: numbered pattern on
the row text, else standalone pattern on the row text, else per-cell
fallback. -/
def processRow (rowText : List Char) (rowCells : List Block) : List (List Char) :=
  let rowMatches := scanNumbered rowText
  if !rowMatches.isEmpty then rowMatches.flatMap numberedParts
  else
    let sm := scanStandalone rowText
    if !sm.isEmpty then sm.map trimChars
    else rowCells.flatMap processCell

/-- The cell filter of `extractMovesFromTable`:
`block.BlockType === 'CELL' && block.Text && block.RowIndex !== undefined`. -/
def tableCellFilter (b : Block) : Bool :=
  b.BlockType = "CELL" &&
  (match b.Text with | some t => t ≠ "" | none => false) &&
  b.RowIndex.isSome

/-- Model of `extractMovesFromTable(response)` on character lists: filter the cell
blocks, group by row in ascending order, sort each row by column, skip row 0
and all-header rows, and process each remaining row. -/
def extractMovesFromTableL (blocks : List Block) : List (List Char) :=
  let cellBlocks := blocks.filter tableCellFilter
  if cellBlocks.isEmpty then []
  else
    (rowKeys cellBlocks).flatMap (fun k =>
      let rowCells := sortByCol (cellBlocks.filter (fun c => rowIdx c = k))
      let rowText := trimChars (joinSpace (rowCells.map (fun c => (c.Text.getD "").data)))
      if k = 0 || rowCells.all (fun c => isHeaderCell (c.Text.getD "").data) then []
      else processRow rowText rowCells)

/-- Model of `extractMovesFromTable(response)`; the argument is `response.Blocks`. -/
def extractMovesFromTable (blocks : List Block) : List String :=
  (extractMovesFromTableL blocks).map (fun l => (⟨l⟩ : String))

/-! ## Concrete oracle instances

`chessToy` fixes the documented behavior of chess.js on the handful of moves
the concrete runs below exercise: from the initial position (state 0) the
moves `e4` and `d4` are legal and everything else tried is rejected; after
`e4` (state 1) the move `e5` is legal.  `castleToy` fixes a position whose
only notations accepted are the castling string `0-0`.  Witnesses and
counterexamples instantiate the abstract Rules Oracle with these. -/

def chessToy : Oracle Nat where
  init := 0
  applyMove := fun b m =>
    if b = 0 ∧ m = "e4" then some 1
    else if b = 0 ∧ m = "d4" then some 3
    else if b = 1 ∧ m = "e5" then some 2
    else none
  moves := fun b => if b = 0 then ["d4", "e4"] else if b = 1 then ["e5"] else []

def castleToy : Oracle Nat where
  init := 0
  applyMove := fun b m => if b = 0 ∧ m = "0-0" then some 1 else none
  moves := fun b => if b = 0 then ["O-O"] else []

/-! ## Properties of the embedding -/

/-! ### String helper lemmas -/

theorem dropWhile_eq_self_all {p : Char → Bool} {l : List Char}
    (h : ∀ c ∈ l, ¬ p c) : l.dropWhile p = l := by
  cases l with
  | nil => rfl
  | cons c t =>
    rw [List.dropWhile_cons]
    have : ¬ p c := h c (by simp)
    simp [this]

theorem trimChars_eq_self {l : List Char} (h : ∀ c ∈ l, ¬ isSpaceC c) :
    trimChars l = l := by
  unfold trimChars
  rw [dropWhile_eq_self_all h, dropWhile_eq_self_all
    (fun c hc => h c (List.mem_reverse.mp hc)), List.reverse_reverse]

theorem trimChars_all_space {l : List Char} (h : ∀ c ∈ l, isSpaceC c) :
    trimChars l = [] := by
  unfold trimChars
  have h1 : l.dropWhile isSpaceC = [] := List.dropWhile_eq_nil_iff.mpr h
  rw [h1]
  rfl

theorem wordsWsAux_no_space {l : List Char} : ∀ {acc : List Char},
    (∀ c ∈ acc, ¬ isSpaceC c) →
    ∀ w ∈ wordsWsAux l acc, ∀ c ∈ w, ¬ isSpaceC c := by
  induction l with
  | nil =>
    intro acc hacc w hw c hc
    rw [wordsWsAux] at hw
    by_cases h : acc = []
    · rw [if_pos h] at hw; exact absurd hw (by simp)
    · rw [if_neg h] at hw
      rcases List.mem_singleton.mp hw with rfl
      exact hacc c (List.mem_reverse.mp hc)
  | cons d t ih =>
    intro acc hacc w hw c hc
    rw [wordsWsAux] at hw
    by_cases hsp : isSpaceC d
    · rw [if_pos hsp] at hw
      by_cases h : acc = []
      · rw [if_pos h] at hw
        refine ih ?_ w hw c hc
        intro x hx
        exact absurd hx (by simp)
      · rw [if_neg h] at hw
        rcases List.mem_cons.mp hw with rfl | hw
        · exact hacc c (List.mem_reverse.mp hc)
        · refine ih ?_ w hw c hc
          intro x hx
          exact absurd hx (by simp)
    · rw [if_neg hsp] at hw
      refine ih ?_ w hw c hc
      intro x hx
      rcases List.mem_cons.mp hx with rfl | hx
      · exact hsp
      · exact hacc x hx

theorem wordsWsAux_all_no_space {l : List Char} : ∀ {acc : List Char},
    (∀ c ∈ l, ¬ isSpaceC c) →
    wordsWsAux l acc = if acc.reverse ++ l = [] then [] else [acc.reverse ++ l] := by
  induction l with
  | nil =>
    intro acc _
    rw [wordsWsAux]
    by_cases h : acc = []
    · subst h; simp
    · rw [if_neg h, List.append_nil, if_neg (by simp [h])]
  | cons d t ih =>
    intro acc hl
    rw [wordsWsAux, if_neg (hl d (by simp)),
      ih (fun c hc => hl c (List.mem_cons_of_mem _ hc))]
    have h2 : (d :: acc).reverse ++ t = acc.reverse ++ d :: t := by simp
    rw [h2]

theorem wordsWsAux_eq_nil {l : List Char} : ∀ {acc : List Char},
    wordsWsAux l acc = [] → acc = [] ∧ ∀ c ∈ l, isSpaceC c := by
  induction l with
  | nil =>
    intro acc h
    rw [wordsWsAux] at h
    by_cases ha : acc = []
    · exact ⟨ha, by simp⟩
    · rw [if_neg ha] at h; exact absurd h (by simp)
  | cons d t ih =>
    intro acc h
    rw [wordsWsAux] at h
    by_cases hsp : isSpaceC d
    · rw [if_pos hsp] at h
      by_cases ha : acc = []
      · rw [if_pos ha] at h
        obtain ⟨-, ht⟩ := ih h
        refine ⟨ha, fun c hc => ?_⟩
        rcases List.mem_cons.mp hc with rfl | hc
        · exact hsp
        · exact ht c hc
      · rw [if_neg ha] at h; exact absurd h (by simp)
    · rw [if_neg hsp] at h
      obtain ⟨ha, -⟩ := ih h
      exact absurd ha (by simp)

theorem dropWhile_head_false {p : Char → Bool} : ∀ {l : List Char} {c : Char}
    {t : List Char}, l.dropWhile p = c :: t → p c = false := by
  intro l
  induction l with
  | nil => intro c t h; exact absurd h (by simp)
  | cons d l ih =>
    intro c t h
    rw [List.dropWhile_cons] at h
    by_cases hd : p d
    · rw [if_pos hd] at h; exact ih h
    · rw [if_neg hd] at h
      obtain ⟨h1, -⟩ := List.cons.injEq .. ▸ h
      rw [← h1]
      exact Bool.not_eq_true _ ▸ hd

/-- A trimmed string whose characters are all whitespace is empty. -/
theorem trimChars_all_space_self {x : List Char}
    (h : ∀ c ∈ trimChars x, isSpaceC c) : trimChars x = [] := by
  match hB : (x.dropWhile isSpaceC).reverse.dropWhile isSpaceC with
  | [] => unfold trimChars; rw [hB]; rfl
  | e :: s =>
    have hef : isSpaceC e = false := dropWhile_head_false hB
    have hmem : e ∈ trimChars x := by
      unfold trimChars
      rw [hB]
      simp
    have htr := h e hmem
    rw [hef] at htr
    exact absurd htr (by simp)



theorem wordsWsAux_mem {l : List Char} : ∀ {acc w : List Char},
    w ∈ wordsWsAux l acc → (∀ c ∈ w, c ∈ l ∨ c ∈ acc) ∧ w ≠ [] := by
  induction l with
  | nil =>
    intro acc w hw
    rw [wordsWsAux] at hw
    by_cases hacc : acc = []
    · rw [if_pos hacc] at hw; exact absurd hw (by simp)
    · rw [if_neg hacc] at hw
      rcases List.mem_singleton.mp hw with rfl
      exact ⟨fun c hc => Or.inr (List.mem_reverse.mp hc), by simp [hacc]⟩
  | cons d t ih =>
    intro acc w hw
    rw [wordsWsAux] at hw
    by_cases hsp : isSpaceC d
    · rw [if_pos hsp] at hw
      by_cases hacc : acc = []
      · rw [if_pos hacc] at hw
        obtain ⟨hmem, hne⟩ := ih hw
        refine ⟨fun c hc => ?_, hne⟩
        rcases hmem c hc with h | h
        · exact Or.inl (List.mem_cons_of_mem _ h)
        · exact absurd h (by simp)
      · rw [if_neg hacc] at hw
        rcases List.mem_cons.mp hw with rfl | hw
        · exact ⟨fun c hc => Or.inr (List.mem_reverse.mp hc), by simp [hacc]⟩
        · obtain ⟨hmem, hne⟩ := ih hw
          refine ⟨fun c hc => ?_, hne⟩
          rcases hmem c hc with h | h
          · exact Or.inl (List.mem_cons_of_mem _ h)
          · exact absurd h (by simp)
    · rw [if_neg hsp] at hw
      obtain ⟨hmem, hne⟩ := ih hw
      refine ⟨fun c hc => ?_, hne⟩
      rcases hmem c hc with h | h
      · exact Or.inl (List.mem_cons_of_mem _ h)
      · rcases List.mem_cons.mp h with rfl | h
        · exact Or.inl (List.mem_cons_self _ _)
        · exact Or.inr h

/-- Every character of a word returned by `wordsWs` is a character of the
input. -/
theorem wordsWs_mem_subset {l w : List Char} (hw : w ∈ wordsWs l) :
    ∀ c ∈ w, c ∈ l := by
  intro c hc
  rcases (wordsWsAux_mem hw).1 c hc with h | h
  · exact h
  · exact absurd h (by simp)

/-- Words returned by `wordsWs` are never empty. -/
theorem wordsWs_ne_nil {l w : List Char} (hw : w ∈ wordsWs l) : w ≠ [] :=
  (wordsWsAux_mem hw).2

theorem stripAfterDigits_subset {r : List Char} :
    ∀ x ∈ stripAfterDigits r, x ∈ r := by
  unfold stripAfterDigits
  split
  · intro x hx
    exact List.mem_cons_of_mem _ (List.dropWhile_subset _ hx)
  · intro x hx
    exact List.dropWhile_subset _ hx

theorem takeWhile_append_all {p : Char → Bool} {D L : List Char}
    (h : ∀ c ∈ D, p c) : (D ++ L).takeWhile p = D ++ L.takeWhile p := by
  induction D with
  | nil => simp
  | cons d D ih =>
    have hd : p d := h d (by simp)
    simp only [List.cons_append, List.takeWhile_cons, hd, if_pos]
    rw [ih (fun c hc => h c (List.mem_cons_of_mem _ hc))]

theorem dropWhile_append_all {p : Char → Bool} {D L : List Char}
    (h : ∀ c ∈ D, p c) : (D ++ L).dropWhile p = L.dropWhile p := by
  induction D with
  | nil => simp
  | cons d D ih =>
    have hd : p d := h d (by simp)
    simp only [List.cons_append, List.dropWhile_cons, hd, if_pos]
    exact ih (fun c hc => h c (List.mem_cons_of_mem _ hc))

theorem wsClsTail_spec {r mc rst : List Char}
    (h : wsClsTail r = some (mc, rst)) : r = mc ++ rst ∧ mc ≠ [] ∧ '.' ∉ mc := by
  unfold wsClsTail at h
  by_cases hc : ((r.dropWhile isSpaceC).takeWhile isMoveCharCI) = []
  · simp only [hc, if_pos] at h; exact absurd h (by simp)
  · simp only [hc, if_neg, reduceIte, Option.some.injEq, Prod.mk.injEq] at h
    obtain ⟨hmc, hrst⟩ := h
    have e1 := List.takeWhile_append_dropWhile (p := isSpaceC) (l := r)
    have e2 := List.takeWhile_append_dropWhile (p := isMoveCharCI)
      (l := r.dropWhile isSpaceC)
    have e3 := List.takeWhile_append_dropWhile (p := isSpaceC)
      (l := (r.dropWhile isSpaceC).dropWhile isMoveCharCI)
    have e4 := List.takeWhile_append_dropWhile (p := isMoveCharCI)
      (l := ((r.dropWhile isSpaceC).dropWhile isMoveCharCI).dropWhile isSpaceC)
    refine ⟨?_, ?_, ?_⟩
    · subst hmc hrst
      conv_lhs => rw [← e1, ← e2, ← e3, ← e4]
      simp [List.append_assoc]
    · subst hmc
      intro habs
      rw [List.append_eq_nil] at habs
      exact hc (List.append_eq_nil.mp habs.1).2
    · subst hmc
      intro habs
      simp only [List.mem_append] at habs
      rcases habs with (h | h) | (h | h) <;>
        exact absurd (List.mem_takeWhile_imp h) (by decide)

theorem contAfterDigits_spec {r mc rst : List Char}
    (h : contAfterDigits r = some (mc, rst)) :
    r = mc ++ rst ∧ mc ≠ [] ∧
      ('.' ∉ mc ∨ ∃ mc', mc = '.' :: mc' ∧ '.' ∉ mc') := by
  match r with
  | '.' :: r' =>
    simp only [contAfterDigits] at h
    match hw : wsClsTail r' with
    | some (mc0, rst0) =>
      rw [hw] at h
      simp only [Option.some.injEq, Prod.mk.injEq] at h
      obtain ⟨hmc, hrst⟩ := h
      obtain ⟨ha, -, hd⟩ := wsClsTail_spec hw
      subst hmc hrst
      exact ⟨by simp [ha], by simp, Or.inr ⟨mc0, rfl, hd⟩⟩
    | none => rw [hw] at h; exact absurd h (by simp)
  | [] => simp [contAfterDigits, wsClsTail] at h
  | c :: r' =>
    have hne : c ≠ '.' → contAfterDigits (c :: r') = wsClsTail (c :: r') := by
      intro hcne
      unfold contAfterDigits
      split
      · next heq => exact absurd (List.cons.injEq .. ▸ heq).1 hcne
      · rfl
    by_cases hcne : c = '.'
    · subst hcne
      simp only [contAfterDigits] at h
      match hw : wsClsTail r' with
      | some (mc0, rst0) =>
        rw [hw] at h
        simp only [Option.some.injEq, Prod.mk.injEq] at h
        obtain ⟨hmc, hrst⟩ := h
        obtain ⟨ha, -, hd⟩ := wsClsTail_spec hw
        subst hmc hrst
        exact ⟨by simp [ha], by simp, Or.inr ⟨mc0, rfl, hd⟩⟩
      | none => rw [hw] at h; exact absurd h (by simp)
    · rw [hne hcne] at h
      obtain ⟨ha, hne', hd⟩ := wsClsTail_spec h
      exact ⟨ha, hne', Or.inl hd⟩

/-- After stripping the leading move number from a numbered-pattern match,
no dot remains: the only dot a match can contain is the one of `\.?`, and
`replace(/^\d+\.?\s*/, '')` always removes it. -/
theorem stripLeadingNum_no_dot {D mc : List Char} (hD : D ≠ [])
    (hdig : ∀ c ∈ D, isDigitC c)
    (hmc : '.' ∉ mc ∨ ∃ mc', mc = '.' :: mc' ∧ '.' ∉ mc') :
    '.' ∉ stripLeadingNum (D ++ mc) := by
  rcases hmc with hnd | ⟨mc', rfl, hnd⟩
  · -- no dot anywhere in `mc`: the stripped string is a sub-collection of `mc`
    have htk : (D ++ mc).takeWhile isDigitC = D ++ mc.takeWhile isDigitC :=
      takeWhile_append_all hdig
    have hdr : (D ++ mc).dropWhile isDigitC = mc.dropWhile isDigitC :=
      dropWhile_append_all hdig
    have hne : (D ++ mc).takeWhile isDigitC ≠ [] := by
      rw [htk]
      intro habs
      exact hD (List.append_eq_nil.mp habs).1
    unfold stripLeadingNum
    rw [if_neg hne, hdr]
    intro hx
    exact hnd (List.dropWhile_subset _ (stripAfterDigits_subset _ hx))
  · -- the dot is the head of `mc`: the stripper consumes exactly `D` then it
    have htk : (D ++ '.' :: mc').takeWhile isDigitC =
        D ++ ('.' :: mc').takeWhile isDigitC := takeWhile_append_all hdig
    have hdr : (D ++ '.' :: mc').dropWhile isDigitC =
        ('.' :: mc').dropWhile isDigitC := dropWhile_append_all hdig
    have hne : (D ++ '.' :: mc').takeWhile isDigitC ≠ [] := by
      rw [htk]
      intro habs
      exact hD (List.append_eq_nil.mp habs).1
    have hdd : isDigitC '.' = false := by decide
    unfold stripLeadingNum
    rw [if_neg hne, hdr]
    have hdrop : ('.' :: mc').dropWhile isDigitC = '.' :: mc' := by
      simp [List.dropWhile_cons, hdd]
    rw [hdrop]
    simp only [stripAfterDigits]
    intro hx
    exact hnd (List.dropWhile_subset _ hx)

theorem tryDigitsRev_spec {rds : List Char} : ∀ {rest m r : List Char},
    rds ≠ [] → (∀ c ∈ rds, isDigitC c) →
    tryDigitsRev rds rest = some (m, r) →
    rds.reverse ++ rest = m ++ r ∧ m ≠ [] ∧ '.' ∉ stripLeadingNum m := by
  induction rds with
  | nil => intro rest m r hne; exact absurd rfl hne
  | cons d rds ih =>
    intro rest m r hne hdig h
    cases rds with
    | nil =>
      rw [tryDigitsRev] at h
      match hca : contAfterDigits rest with
      | some (mc, rst) =>
        rw [hca] at h
        simp only [Option.some.injEq, Prod.mk.injEq] at h
        obtain ⟨hm, hr⟩ := h
        obtain ⟨ha, hmcne, hdots⟩ := contAfterDigits_spec hca
        subst hm hr
        refine ⟨by rw [ha]; simp, by simp, ?_⟩
        exact stripLeadingNum_no_dot (by simp)
          (fun c hc => by
            simp only [List.mem_singleton] at hc
            exact hc ▸ hdig d (by simp)) hdots
      | none => rw [hca] at h; exact absurd h (by simp)
    | cons e rds' =>
      rw [tryDigitsRev] at h
      match hca : contAfterDigits rest with
      | some (mc, rst) =>
        rw [hca] at h
        simp only [Option.some.injEq, Prod.mk.injEq] at h
        obtain ⟨hm, hr⟩ := h
        obtain ⟨ha, hmcne, hdots⟩ := contAfterDigits_spec hca
        subst hm hr
        refine ⟨by rw [ha, List.append_assoc], by simp, ?_⟩
        exact stripLeadingNum_no_dot (by simp)
          (fun c hc => hdig c (List.mem_reverse.mp hc)) hdots
      | none =>
        rw [hca] at h
        have hdig' : ∀ c ∈ e :: rds', isDigitC c := fun c hc =>
          hdig c (List.mem_cons_of_mem _ hc)
        obtain ⟨ha, hm, hd⟩ := ih (by simp) hdig' h
        refine ⟨?_, hm, hd⟩
        rw [← ha]
        simp

/-- Structure of a match of the numbered-move pattern: the input splits as
match ++ rest, the match is non-empty, and stripping its leading move number
leaves no dot. -/
theorem matchNumAt_spec {s m r : List Char} (h : matchNumAt s = some (m, r)) :
    s = m ++ r ∧ m ≠ [] ∧ '.' ∉ stripLeadingNum m := by
  unfold matchNumAt at h
  by_cases hds : s.takeWhile isDigitC = []
  · rw [if_pos hds] at h; exact absurd h (by simp)
  · rw [if_neg hds] at h
    have hdig : ∀ c ∈ (s.takeWhile isDigitC).reverse, isDigitC c := fun c hc =>
      List.mem_takeWhile_imp (List.mem_reverse.mp hc)
    obtain ⟨ha, hm, hd⟩ := tryDigitsRev_spec (by simp [hds]) hdig h
    rw [List.reverse_reverse, List.takeWhile_append_dropWhile] at ha
    exact ⟨ha, hm, hd⟩

/-- Any amount of fuel at least `s.length + 1` gives the same scan result:
the fuel bound is inert. -/
theorem scanNumberedFuel_ge {f g : Nat} : ∀ {s : List Char},
    s.length + 1 ≤ f → s.length + 1 ≤ g →
    scanNumberedFuel f s = scanNumberedFuel g s := by
  induction f using Nat.strong_induction_on generalizing g with
  | _ f ihf =>
  intro s hf hg
  match f, hf with
  | f + 1, hf =>
  match g, hg with
  | g + 1, hg =>
  match s, hf, hg with
  | [], _, _ => rw [scanNumberedFuel, scanNumberedFuel]
  | c :: t, hf, hg =>
    rw [scanNumberedFuel, scanNumberedFuel]
    match hm : matchNumAt (c :: t) with
    | some (m, r) =>
      obtain ⟨ha, hne, -⟩ := matchNumAt_spec hm
      have hr : r.length < (c :: t).length := by
        rw [ha, List.length_append]
        cases m with
        | nil => exact absurd rfl hne
        | cons x y => simp
      show m :: scanNumberedFuel f r = m :: scanNumberedFuel g r
      simp only [List.length_cons] at hf hg hr
      rw [ihf f (by omega) (g := g) (s := r) (by omega) (by omega)]
    | none =>
      show scanNumberedFuel f t = scanNumberedFuel g t
      simp only [List.length_cons] at hf hg
      rw [ihf f (by omega) (g := g) (s := t) (by omega) (by omega)]

/-- Every element of a numbered-pattern scan is a match produced by
`matchNumAt`. -/
theorem scanNumberedFuel_mem {f : Nat} : ∀ {s m : List Char},
    m ∈ scanNumberedFuel f s → ∃ s' r, matchNumAt s' = some (m, r) := by
  induction f with
  | zero => intro s m h; exact absurd h (by simp [scanNumberedFuel])
  | succ f ih =>
    intro s m h
    match s, h with
    | [], h => rw [scanNumberedFuel] at h; exact absurd h (by simp)
    | c :: t, h =>
      rw [scanNumberedFuel] at h
      match hm : matchNumAt (c :: t) with
      | some (m', r) =>
        rw [hm] at h
        replace h : m ∈ m' :: scanNumberedFuel f r := h
        rcases List.mem_cons.mp h with rfl | h
        · exact ⟨c :: t, r, hm⟩
        · exact ih h
      | none =>
        rw [hm] at h
        replace h : m ∈ scanNumberedFuel f t := h
        exact ih h

/-- Every element of `scanNumbered s` is a match produced by `matchNumAt`. -/
theorem scanNumbered_mem {s m : List Char} (h : m ∈ scanNumbered s) :
    ∃ s' r, matchNumAt s' = some (m, r) :=
  scanNumberedFuel_mem h

theorem levFuel_eq_zero {f : Nat} : ∀ {xs ys : List Char},
    xs.length + ys.length < f → levFuel f xs ys = 0 → xs = ys := by
  induction f with
  | zero => intro xs ys h; omega
  | succ f ih =>
    intro xs ys hlen h
    match xs, ys, hlen, h with
    | [], [], _, _ => rfl
    | [], y :: ys, _, h => simp [levFuel] at h
    | x :: xs, [], _, h => simp [levFuel] at h
    | x :: xs, y :: ys, hlen, h =>
      rw [levFuel] at h
      by_cases hxy : x = y
      · rw [if_pos hxy] at h
        simp only [List.length_cons] at hlen
        rw [hxy, ih (by omega) h]
      · rw [if_neg hxy] at h
        omega

/-- A distance of zero forces equality (`fast-levenshtein` computes a
metric). -/
theorem levL_eq_zero {xs ys : List Char} (h : levL xs ys = 0) : xs = ys :=
  levFuel_eq_zero (by omega) h

/-- The normalized token never contains whitespace. -/
theorem extractMoveNotationL_no_space (l : List Char) :
    ∀ c ∈ extractMoveNotationL l, ¬ isSpaceC c := by
  intro c hc
  replace hc : c ∈ (match wordsWs (trimChars (stripLeadingNum l)) with
    | [] => trimChars (stripLeadingNum l)
    | w :: _ => w) := hc
  match hw : wordsWs (trimChars (stripLeadingNum l)) with
  | [] =>
    rw [hw] at hc
    replace hc : c ∈ trimChars (stripLeadingNum l) := hc
    obtain ⟨-, hall⟩ := wordsWsAux_eq_nil hw
    rw [trimChars_all_space_self hall] at hc
    exact absurd hc (by simp)
  | w :: ws =>
    rw [hw] at hc
    replace hc : c ∈ w := hc
    have hmem : w ∈ wordsWs (trimChars (stripLeadingNum l)) := by
      rw [hw]
      exact List.mem_cons_self w ws
    refine wordsWsAux_no_space ?_ w hmem c hc
    intro x hx
    exact absurd hx (by simp)

/-- Normalizing a whitespace-free token that does not start with a digit
changes nothing. -/
theorem extractMoveNotationL_self {w : List Char}
    (hs : ∀ c ∈ w, ¬ isSpaceC c)
    (hd : ∀ c cs, w = c :: cs → isDigitC c = false) :
    extractMoveNotationL w = w := by
  have hstrip : stripLeadingNum w = w := by
    match w, hd with
    | [], _ => rfl
    | c :: cs, hd =>
      have hdc : isDigitC c = false := hd c cs rfl
      unfold stripLeadingNum
      have hcond : (c :: cs).takeWhile isDigitC = [] := by
        simp [List.takeWhile_cons, hdc]
      rw [if_pos hcond]
  have htrim : trimChars w = w := trimChars_eq_self hs
  unfold extractMoveNotationL
  rw [hstrip, htrim]
  match w, hs with
  | [], _ => rfl
  | c :: cs, hs =>
    show (match wordsWs (c :: cs) with
      | [] => c :: cs
      | w :: _ => w) = c :: cs
    unfold wordsWs
    rw [wordsWsAux_all_no_space hs, if_neg (by simp)]
    simp

/-- String-level: normalization is idempotent on tokens that do not start
with a digit (such as any SAN move notation). -/
theorem extractMoveNotation_idem {m : String}
    (hd : ∀ c cs, (extractMoveNotation m).data = c :: cs → isDigitC c = false) :
    extractMoveNotation (extractMoveNotation m) = extractMoveNotation m := by
  unfold extractMoveNotation
  congr 1
  exact extractMoveNotationL_self (extractMoveNotationL_no_space m.data) hd

/-- Two strings with equal character data are equal. -/
theorem string_data_eq {a b : String} (h : a.data = b.data) : a = b := by
  cases a
  cases b
  exact congrArg String.mk h

/-! ### `validateMove`, `tryCandidates` and the Levenshtein loop -/

theorem validateMove_of_none {β : Type} {O : Oracle β} {b : β} {t : String}
    (h : O.applyMove b (extractMoveNotation t) = none) :
    validateMove O b t = ⟨false, t, b⟩ := by
  unfold validateMove
  rw [h]

theorem validateMove_of_some {β : Type} {O : Oracle β} {b b' : β} {t : String}
    (h : O.applyMove b (extractMoveNotation t) = some b') :
    validateMove O b t = ⟨true, extractMoveNotation t, b'⟩ := by
  unfold validateMove
  rw [h]

theorem tryCandidates_none {β : Type} {O : Oracle β} {b : β} {mn : String} :
    ∀ {cs : List String}, (∀ c ∈ cs, c ≠ mn → O.applyMove b c = none) →
    tryCandidates O b mn cs = none := by
  intro cs
  induction cs with
  | nil => intro _; rfl
  | cons c cs ih =>
    intro h
    rw [tryCandidates]
    by_cases hc : c = mn
    · rw [if_pos hc]
      exact ih (fun x hx => h x (List.mem_cons_of_mem _ hx))
    · rw [if_neg hc, h c (by simp) hc]
      exact ih (fun x hx => h x (List.mem_cons_of_mem _ hx))

/-- If every remaining legal move fails the update test, the loop
accumulator is unchanged. -/
theorem levScan_stay {n : List Char} {acc : Option String × Nat} :
    ∀ {ms : List String},
    (∀ mv ∈ ms, ¬(levL n mv.data < acc.2 ∧ levL n mv.data ≤ 2)) →
    ms.foldl (levScanStep n) acc = acc := by
  intro ms
  induction ms with
  | nil => intro _; rfl
  | cons m t ih =>
    intro h
    rw [List.foldl_cons]
    have hstep : levScanStep n acc m = acc := by
      unfold levScanStep
      rw [if_neg (h m (by simp))]
    rw [hstep]
    exact ih (fun x hx => h x (List.mem_cons_of_mem _ hx))

/-- The loop selects the first legal move attaining the minimum distance
(when that minimum is within the threshold). -/
theorem levScan_first_min {n : List Char} {mv : String} {d : Nat} :
    ∀ {pre : List String} {post : List String} {acc : Option String × Nat},
    levL n mv.data = d → d ≤ 2 →
    (∀ p ∈ pre, d < levL n p.data) →
    (∀ q ∈ post, d ≤ levL n q.data) →
    d < acc.2 →
    (pre ++ mv :: post).foldl (levScanStep n) acc = (some mv, d) := by
  intro pre
  induction pre with
  | nil =>
    intro post acc hd hd2 hpre hpost hacc
    rw [List.nil_append, List.foldl_cons]
    have hstep : levScanStep n acc mv = (some mv, d) := by
      unfold levScanStep
      rw [hd, if_pos ⟨hacc, hd2⟩]
    rw [hstep]
    refine levScan_stay ?_
    intro q hq
    intro habs
    exact absurd habs.1 (by have := hpost q hq; omega)
  | cons p pre ih =>
    intro post acc hd hd2 hpre hpost hacc
    rw [List.cons_append, List.foldl_cons]
    have hp : d < levL n p.data := hpre p (by simp)
    by_cases hup : levL n p.data < acc.2 ∧ levL n p.data ≤ 2
    · have hstep : levScanStep n acc p = (some p, levL n p.data) := by
        unfold levScanStep
        rw [if_pos hup]
      rw [hstep]
      exact ih hd hd2 (fun x hx => hpre x (List.mem_cons_of_mem _ hx)) hpost hp
    · have hstep : levScanStep n acc p = acc := by
        unfold levScanStep
        rw [if_neg hup]
      rw [hstep]
      exact ih hd hd2 (fun x hx => hpre x (List.mem_cons_of_mem _ hx)) hpost hacc

/-- Whatever the loop returns beyond its starting accumulator is a legal
move together with its own distance, within the threshold. -/
theorem levScan_char {n : List Char} :
    ∀ {ms : List String} {acc : Option String × Nat} {best : String} {low : Nat},
    ms.foldl (levScanStep n) acc = (some best, low) →
    acc = (some best, low) ∨
      (best ∈ ms ∧ low = levL n best.data ∧ low ≤ 2) := by
  intro ms
  induction ms with
  | nil => intro acc best low h; exact Or.inl h
  | cons m t ih =>
    intro acc best low h
    rw [List.foldl_cons] at h
    rcases ih h with hacc | ⟨hmem, hlow, hle⟩
    · unfold levScanStep at hacc
      by_cases hup : levL n m.data < acc.2 ∧ levL n m.data ≤ 2
      · rw [if_pos hup] at hacc
        obtain ⟨h1, h2⟩ := Prod.mk.injEq .. ▸ hacc
        have hm : m = best := Option.some.injEq .. ▸ h1
        subst hm
        subst h2
        exact Or.inr ⟨by simp, rfl, hup.2⟩
      · rw [if_neg hup] at hacc
        exact Or.inl hacc
    · exact Or.inr ⟨List.mem_cons_of_mem _ hmem, hlow, hle⟩

/-- The instrumented loop performs exactly one distance computation per
legal move. -/
theorem levScanInstr_count (n : List Char) (ms : List String) :
    (levScanInstr n ms).2 = ms.length := by
  unfold levScanInstr
  suffices h : ∀ (acc : (Option String × Nat) × Nat),
      (ms.foldl (fun acc mv => (levScanStep n acc.1 mv, acc.2 + 1)) acc).2 =
        acc.2 + ms.length by
    rw [h ((none, 99), 0)]
    omega
  induction ms with
  | nil => intro acc; simp
  | cons m t ih =>
    intro acc
    rw [List.foldl_cons, ih]
    simp only [List.length_cons]
    omega

/-! ### The reconciliation loop -/

theorem runStep_fields {β : Type} (O : Oracle β) (st : RunState β) (mv : String) :
    (runStep O st mv).moves = st.moves ++ [(fuzzyMatchMove O st.board mv).move] ∧
    ((runStep O st mv).valid + (runStep O st mv).corrected + (runStep O st mv).invalid
      = st.valid + st.corrected + st.invalid + 1) ∧
    ((runStep O st mv).valid = st.valid ∨ (runStep O st mv).valid = st.valid + 1) ∧
    ((runStep O st mv).corrected = st.corrected ∨ (runStep O st mv).corrected = st.corrected + 1) ∧
    ((runStep O st mv).invalid = st.invalid ∨ (runStep O st mv).invalid = st.invalid + 1) ∧
    ((runStep O st mv).corrs.length + st.corrected + st.invalid
      = st.corrs.length + (runStep O st mv).corrected + (runStep O st mv).invalid) := by
  simp only [runStep]
  split
  · split
    · exact ⟨rfl, by simp; try omega, Or.inl rfl, Or.inr rfl, Or.inl rfl, by simp; try omega⟩
    · exact ⟨rfl, by simp; try omega, Or.inr rfl, Or.inl rfl, Or.inl rfl, by simp; try omega⟩
  · exact ⟨rfl, by simp; try omega, Or.inl rfl, Or.inl rfl, Or.inr rfl, by simp; try omega⟩

theorem runFold_inv {β : Type} (O : Oracle β) : ∀ (l : List String) (st : RunState β),
    ((l.foldl (runStep O) st).moves.length = st.moves.length + l.length) ∧
    ((l.foldl (runStep O) st).valid + (l.foldl (runStep O) st).corrected
        + (l.foldl (runStep O) st).invalid
      = st.valid + st.corrected + st.invalid + l.length) ∧
    ((l.foldl (runStep O) st).corrs.length + st.corrected + st.invalid
      = st.corrs.length + (l.foldl (runStep O) st).corrected
        + (l.foldl (runStep O) st).invalid) := by
  intro l
  induction l with
  | nil => intro st; simp
  | cons m t ih =>
    intro st
    rw [List.foldl_cons]
    obtain ⟨h1, h2, h3, h4, h5, h6⟩ := runStep_fields O st m
    obtain ⟨g1, g2, g3⟩ := ih (runStep O st m)
    refine ⟨?_, ?_, ?_⟩
    · rw [g1, h1]
      simp only [List.length_append, List.length_cons, List.length_nil]
      omega
    · rw [g2]
      try simp only [List.length_cons]
      omega
    · try simp only [List.length_cons]
      omega

theorem runStep_corrs_emit {β : Type} (O : Oracle β) (st : RunState β) (mv : String) :
    (runStep O st mv).corrs = st.corrs ++
      (if (fuzzyMatchMove O st.board mv).valid then
        (if (fuzzyMatchMove O st.board mv).corrected then
          [{ original := (fuzzyMatchMove O st.board mv).original, corrected := some (fuzzyMatchMove O st.board mv).move, correction := (fuzzyMatchMove O st.board mv).correction }]
        else [])
      else
        [{ original := (fuzzyMatchMove O st.board mv).original, corrected := none, error := some ((fuzzyMatchMove O st.board mv).error.getD "Invalid move") }]) := by
  simp only [runStep]
  split
  · split
    · rfl
    · simp
  · rfl

theorem runStep_corrs_mem {β : Type} {O : Oracle β} {st : RunState β}
    {mv : String} {c : Correction} (hc : c ∈ (runStep O st mv).corrs) :
    c ∈ st.corrs ∨ (∃ m, c.corrected = some m ∧ c.error = none) ∨
      (c.corrected = none ∧ c.error ≠ none) := by
  rw [runStep_corrs_emit] at hc
  rcases List.mem_append.mp hc with h | h
  · exact Or.inl h
  · split at h
    · split at h
      · rcases List.mem_singleton.mp h with rfl
        exact Or.inr (Or.inl ⟨(fuzzyMatchMove O st.board mv).move, rfl, rfl⟩)
      · exact absurd h (by simp)
    · rcases List.mem_singleton.mp h with rfl
      exact Or.inr (Or.inr ⟨rfl, by simp⟩)

theorem runFold_corrs_mem {β : Type} {O : Oracle β} : ∀ {l : List String}
    {st : RunState β} {c : Correction}, c ∈ (l.foldl (runStep O) st).corrs →
    c ∈ st.corrs ∨ (∃ m, c.corrected = some m ∧ c.error = none) ∨
      (c.corrected = none ∧ c.error ≠ none) := by
  intro l
  induction l with
  | nil => intro st c hc; exact Or.inl hc
  | cons m t ih =>
    intro st c hc
    rw [List.foldl_cons] at hc
    rcases ih hc with h | h
    · exact runStep_corrs_mem h
    · exact Or.inr h

/-- When the exact stage, the pattern stage and the distance threshold all
fail, `fuzzyMatchMove` reports the token invalid, echoes the normalized
token and leaves the board untouched. -/
theorem fuzzyMatchMove_invalid_path {β : Type} {O : Oracle β} {b : β} {mv : String}
    (h1 : O.applyMove b (extractMoveNotation (extractMoveNotation mv)) = none)
    (h2 : ∀ c ∈ generateFuzzyMatches (extractMoveNotation mv),
      c ≠ extractMoveNotation mv → O.applyMove b c = none)
    (h3 : ∀ q ∈ O.moves b, 3 ≤ levL (extractMoveNotation mv).data q.data) :
    fuzzyMatchMove O b mv =
      ⟨false, extractMoveNotation mv, false, mv, none, none, none,
        some (if O.moves b = [] then "No legal moves available"
          else "No valid move found after fuzzy matching"), b⟩ := by
  simp only [fuzzyMatchMove, validateMove_of_none h1, tryCandidates_none h2]
  by_cases hmb : O.moves b = []
  · simp [hmb]
  · rw [if_neg hmb]
    have hscan : levScan (extractMoveNotation mv).data (O.moves b) = (none, 99) := by
      unfold levScan
      refine levScan_stay ?_
      intro q hq habs
      have := h3 q hq
      omega
    rw [hscan]
    simp [hmb]

/-- The Levenshtein loop, from its actual start `(null, 99)`, returns the
first legal move attaining the minimum distance when that minimum is within
the threshold. -/
theorem levScan_first {n : List Char} {pre post : List String} {best : String}
    {d : Nat} (hd : levL n best.data = d) (hd2 : d ≤ 2)
    (hpre : ∀ p ∈ pre, d < levL n p.data)
    (hpost : ∀ q ∈ post, d ≤ levL n q.data) :
    levScan n (pre ++ best :: post) = (some best, d) := by
  unfold levScan
  exact levScan_first_min hd hd2 hpre hpost (by omega)

/-- The instrumented loop computes the same best match and distance as the
plain loop: the counter is inert. -/
theorem levScanInstr_fst (n : List Char) (ms : List String) :
    (levScanInstr n ms).1 = levScan n ms := by
  unfold levScanInstr levScan
  suffices h : ∀ (acc : Option String × Nat) (k : Nat),
      (ms.foldl (fun acc mv => (levScanStep n acc.1 mv, acc.2 + 1)) (acc, k)).1 =
        ms.foldl (levScanStep n) acc from h (none, 99) 0
  induction ms with
  | nil => intro acc k; rfl
  | cons m t ih =>
    intro acc k
    rw [List.foldl_cons, List.foldl_cons]
    exact ih (levScanStep n acc m) (k + 1)

/-! ### Membership in the fuzzy candidate set -/

theorem insertUnique_mem_self (l : List (List Char)) (x : List Char) :
    x ∈ insertUnique l x := by
  unfold insertUnique
  by_cases h : x ∈ l
  · rw [if_pos h]; exact h
  · rw [if_neg h]; simp

theorem insertUnique_mem_of {l : List (List Char)} {x : List Char}
    (y : List Char) (h : x ∈ l) : x ∈ insertUnique l y := by
  unfold insertUnique
  by_cases hy : y ∈ l
  · rw [if_pos hy]; exact h
  · rw [if_neg hy]; exact List.mem_append_left _ h

theorem foldl_pres {α : Type} {f : List (List Char) → α → List (List Char)}
    (hf : ∀ a x y, y ∈ a → y ∈ f a x) :
    ∀ {l : List α} {a : List (List Char)} {y : List Char}, y ∈ a → y ∈ l.foldl f a := by
  intro l
  induction l with
  | nil => intro a y h; exact h
  | cons x t ih => intro a y h; exact ih (hf a x y h)

theorem foldl_reach {α : Type} {f : List (List Char) → α → List (List Char)}
    (hf : ∀ a x y, y ∈ a → y ∈ f a x) {i : α} {y : List Char}
    (hy : ∀ a, y ∈ f a i) :
    ∀ {l : List α}, i ∈ l → ∀ (a : List (List Char)), y ∈ l.foldl f a := by
  intro l
  induction l with
  | nil => intro h; exact absurd h (by simp)
  | cons x t ih =>
    intro h a
    rw [List.foldl_cons]
    rcases List.mem_cons.mp h with rfl | h
    · exact foldl_pres hf (hy a)
    · exact ih h (f a x)

/-- The two folds of `gfmL` only ever insert candidates: membership is
preserved. -/
theorem gfmL_step_pres (mv : List Char) :
    ∀ (a : List (List Char)) (i : Nat) (y : List Char), y ∈ a →
      y ∈ (ocrSubs (mv.getD i ' ')).foldl
        (fun cs2 rep => insertUnique cs2 (setCharAt mv i rep)) a := by
  intro a i y h
  exact foldl_pres (fun a x y h => insertUnique_mem_of _ h) h

theorem gfmL_castling_pres :
    ∀ (a : List (List Char)) (q : Bool × Bool × List Char × List Char)
      (y : List Char) (mv : List Char), y ∈ a →
      y ∈ (match q with
        | (ci, glob, pat, repl) =>
          if containsLit ci pat mv then insertUnique a (applyCastling ci glob pat repl mv)
          else a) := by
  intro a q y mv h
  match q with
  | (ci, glob, pat, repl) =>
    show y ∈ (if containsLit ci pat mv = true
      then insertUnique a (applyCastling ci glob pat repl mv) else a)
    by_cases hc : containsLit ci pat mv
    · rw [if_pos hc]; exact insertUnique_mem_of _ h
    · rw [if_neg hc]; exact h

/-- Everything present after the single-substitution fold survives the
castling fold. -/
theorem gfmL_mem_of_first {mv y : List Char}
    (h : y ∈ (List.range mv.length).foldl (fun cs i =>
      (ocrSubs (mv.getD i ' ')).foldl
        (fun cs2 rep => insertUnique cs2 (setCharAt mv i rep)) cs) [mv]) :
    y ∈ gfmL mv := by
  unfold gfmL
  exact foldl_pres (fun a q y h => gfmL_castling_pres a q y mv h) h

/-- The original move is among its own fuzzy candidates. -/
theorem gfmL_mem_self (mv : List Char) : mv ∈ gfmL mv := by
  refine gfmL_mem_of_first (foldl_pres ?_ (by simp))
  intro a i y h
  exact gfmL_step_pres mv a i y h

/-- Every single-character OCR substitution is among the candidates. -/
theorem gfmL_mem_sub {mv : List Char} {i : Nat} (hi : i < mv.length)
    {rep : Char} (hr : rep ∈ ocrSubs (mv.getD i ' ')) :
    setCharAt mv i rep ∈ gfmL mv := by
  refine gfmL_mem_of_first ?_
  refine foldl_reach (fun a x y h => gfmL_step_pres mv a x y h) ?_ (List.mem_range.mpr hi) [mv]
  intro a
  exact foldl_reach (f := fun cs2 r => insertUnique cs2 (setCharAt mv i r))
    (fun a2 x y h => insertUnique_mem_of _ h)
    (fun a2 => insertUnique_mem_self a2 _) hr a

/-! ### The claims -/

/-- C1.  Length preservation: for every list of blocks (and any rules
oracle), `correctOCRErrors` returns a `correctedMoves` list of exactly the
same length as the extracted `originalMoves` list; each processed token
appends exactly one entry to the output sequence. -/
theorem C1_length_preservation {β : Type} (O : Oracle β) (blocks : Option (List Block)) :
    (correctOCRErrors O blocks).correctedMoves.length
      = (correctOCRErrors O blocks).originalMoves.length ∧
    (correctOCRErrors O blocks).originalMoves = extractMovesFromBlocks blocks ∧
    (∀ (st : RunState β) (mv : String),
      (runStep O st mv).moves = st.moves ++ [(fuzzyMatchMove O st.board mv).move]) := by
  refine ⟨?_, rfl, fun st mv => (runStep_fields O st mv).1⟩
  show ((extractMovesFromBlocks blocks).foldl (runStep O)
    ⟨O.init, [], [], 0, 0, 0⟩).moves.length = (extractMovesFromBlocks blocks).length
  obtain ⟨h1, -, -⟩ := runFold_inv O (extractMovesFromBlocks blocks) ⟨O.init, [], [], 0, 0, 0⟩
  rw [h1]
  simp

/-- C4.  Counts partition: each processed token increments exactly one of
`stats.valid`, `stats.corrected`, `stats.invalid`, and after the run
`valid + corrected + invalid = total` with `total` the number of extracted
tokens. -/
theorem C4_counts_partition {β : Type} (O : Oracle β) (blocks : Option (List Block)) :
    ((correctOCRErrors O blocks).stats.valid + (correctOCRErrors O blocks).stats.corrected
        + (correctOCRErrors O blocks).stats.invalid
      = (correctOCRErrors O blocks).stats.total) ∧
    (correctOCRErrors O blocks).stats.total = (extractMovesFromBlocks blocks).length ∧
    (∀ (st : RunState β) (mv : String),
      ((runStep O st mv).valid + (runStep O st mv).corrected + (runStep O st mv).invalid
        = st.valid + st.corrected + st.invalid + 1) ∧
      ((runStep O st mv).valid = st.valid ∨ (runStep O st mv).valid = st.valid + 1) ∧
      ((runStep O st mv).corrected = st.corrected ∨ (runStep O st mv).corrected = st.corrected + 1) ∧
      ((runStep O st mv).invalid = st.invalid ∨ (runStep O st mv).invalid = st.invalid + 1)) := by
  refine ⟨?_, rfl, fun st mv => ?_⟩
  · show ((extractMovesFromBlocks blocks).foldl (runStep O) ⟨O.init, [], [], 0, 0, 0⟩).valid
        + ((extractMovesFromBlocks blocks).foldl (runStep O) ⟨O.init, [], [], 0, 0, 0⟩).corrected
        + ((extractMovesFromBlocks blocks).foldl (runStep O) ⟨O.init, [], [], 0, 0, 0⟩).invalid
      = (extractMovesFromBlocks blocks).length
    obtain ⟨-, h2, -⟩ := runFold_inv O (extractMovesFromBlocks blocks) ⟨O.init, [], [], 0, 0, 0⟩
    rw [h2]
    simp
  · obtain ⟨-, h2, h3, h4, h5, -⟩ := runStep_fields O st mv
    exact ⟨h2, h3, h4, h5⟩

/-- C3 (counterexample).  With the toy oracle (`e4` legal from the initial
position, as in chess.js), the single extracted token `"1.e4"` is accepted
as-is by the exact check (`stats.valid = 1`) but produces NO correction
record: `corrections` is empty while there is one input token, so the
engine does not emit one record per token. -/
theorem C3_counterexample :
    (correctOCRErrors chessToy
        (some [{ BlockType := "CELL", Text := some "1.e4", RowIndex := some 1, ColumnIndex := some 1 }])).originalMoves.length = 1 ∧
    (correctOCRErrors chessToy
        (some [{ BlockType := "CELL", Text := some "1.e4", RowIndex := some 1, ColumnIndex := some 1 }])).stats.valid = 1 ∧
    (correctOCRErrors chessToy
        (some [{ BlockType := "CELL", Text := some "1.e4", RowIndex := some 1, ColumnIndex := some 1 }])).corrections.length = 0 := by
  refine ⟨?_, ?_, ?_⟩ <;> decide

/-- C3 (amended).  The engine emits one correction record per repaired or
invalid token and none for a token accepted as-is by the exact check:
`corrections.length = stats.corrected + stats.invalid`, and a record's
`corrected` field is non-null (with no `error`) exactly when the token was
repaired by the pattern or Levenshtein stage, null (with an `error`) when it
was unresolved; `runStep_corrs_emit` gives the exact per-token emission. -/
theorem C3_record_completeness {β : Type} (O : Oracle β) (blocks : Option (List Block)) :
    ((correctOCRErrors O blocks).corrections.length
      = (correctOCRErrors O blocks).stats.corrected + (correctOCRErrors O blocks).stats.invalid) ∧
    (∀ c ∈ (correctOCRErrors O blocks).corrections,
      (∃ m, c.corrected = some m ∧ c.error = none) ∨
      (c.corrected = none ∧ c.error ≠ none)) := by
  constructor
  · show ((extractMovesFromBlocks blocks).foldl (runStep O) ⟨O.init, [], [], 0, 0, 0⟩).corrs.length
      = ((extractMovesFromBlocks blocks).foldl (runStep O) ⟨O.init, [], [], 0, 0, 0⟩).corrected
        + ((extractMovesFromBlocks blocks).foldl (runStep O) ⟨O.init, [], [], 0, 0, 0⟩).invalid
    obtain ⟨-, -, h3⟩ := runFold_inv O (extractMovesFromBlocks blocks) ⟨O.init, [], [], 0, 0, 0⟩
    simp only [List.length_nil] at h3
    omega
  · intro c hc
    replace hc : c ∈ ((extractMovesFromBlocks blocks).foldl (runStep O)
      ⟨O.init, [], [], 0, 0, 0⟩).corrs := hc
    rcases runFold_corrs_mem hc with h | h
    · exact absurd h (by simp)
    · exact h

/-- C3 (amended, witness): the record facts at a concrete input — one
invalid token gives one record with `corrected = none`. -/
theorem C3_record_completeness_witness :
    (correctOCRErrors chessToy
        (some [{ BlockType := "CELL", Text := some "1. e4 e5", RowIndex := some 1, ColumnIndex := some 1 }])).corrections.length
      = (correctOCRErrors chessToy
        (some [{ BlockType := "CELL", Text := some "1. e4 e5", RowIndex := some 1, ColumnIndex := some 1 }])).stats.corrected
        + (correctOCRErrors chessToy
        (some [{ BlockType := "CELL", Text := some "1. e4 e5", RowIndex := some 1, ColumnIndex := some 1 }])).stats.invalid := by
  exact (C3_record_completeness chessToy
    (some [{ BlockType := "CELL", Text := some "1. e4 e5", RowIndex := some 1, ColumnIndex := some 1 }])).1

/-- C2.  Atomicity on failure: when the exact check fails, every fuzzy
candidate fails and every legal move is at edit distance at least 3, the
token is recorded as invalid with `corrected = null`, `stats.invalid` grows
by exactly 1, the normalized original string is placed in the output
sequence, and the position is unchanged — so the next token is validated
against the same position as the previous one. -/
theorem C2_threshold_rejection {β : Type} (O : Oracle β) (st : RunState β) (mv : String)
    (h1 : O.applyMove st.board (extractMoveNotation (extractMoveNotation mv)) = none)
    (h2 : ∀ c ∈ generateFuzzyMatches (extractMoveNotation mv),
      c ≠ extractMoveNotation mv → O.applyMove st.board c = none)
    (h3 : ∀ q ∈ O.moves st.board, 3 ≤ levL (extractMoveNotation mv).data q.data) :
    (runStep O st mv).board = st.board ∧
    (runStep O st mv).moves = st.moves ++ [extractMoveNotation mv] ∧
    (runStep O st mv).invalid = st.invalid + 1 ∧
    (runStep O st mv).valid = st.valid ∧
    (runStep O st mv).corrected = st.corrected ∧
    (∃ e, (runStep O st mv).corrs
      = st.corrs ++ [{ original := mv, corrected := none, error := some e }]) := by
  have hf := fuzzyMatchMove_invalid_path h1 h2 h3
  refine ⟨?_, ?_, ?_, ?_, ?_,
    ⟨(if O.moves st.board = [] then "No legal moves available"
      else "No valid move found after fuzzy matching"), ?_⟩⟩ <;>
    simp [runStep, hf]

/-- C2 (witness): the toy oracle rejects `"zzz"` everywhere (all legal moves
are at distance 3); the step records it invalid and leaves the board at the
initial position. -/
theorem C2_threshold_rejection_witness :
    (runStep chessToy ⟨0, [], [], 0, 0, 0⟩ "zzz").board = 0 ∧
    (runStep chessToy ⟨0, [], [], 0, 0, 0⟩ "zzz").moves = ["zzz"] ∧
    (runStep chessToy ⟨0, [], [], 0, 0, 0⟩ "zzz").invalid = 1 := by
  obtain ⟨hb, hm, hi, -, -, -⟩ := C2_threshold_rejection chessToy ⟨0, [], [], 0, 0, 0⟩ "zzz"
    (by decide) (by decide) (by decide)
  refine ⟨hb, ?_, hi⟩
  rw [hm]
  decide

/-- C5.  Levenshtein selection rule: when the exact and pattern stages fail
and the legal-move list is non-empty, the engine accepts the first legal
move attaining the minimum edit distance if and only if that minimum is at
most 2 (ties broken by oracle enumeration order); when every legal move is
at distance at least 3 the token is recorded invalid and the position does
not advance. -/
theorem C5_levenshtein_selection {β : Type} (O : Oracle β) (b : β) (mv : String)
    (h1 : O.applyMove b (extractMoveNotation (extractMoveNotation mv)) = none)
    (h2 : ∀ c ∈ generateFuzzyMatches (extractMoveNotation mv),
      c ≠ extractMoveNotation mv → O.applyMove b c = none)
    (h3 : O.moves b ≠ []) :
    (∀ (pre post : List String) (best : String) (d : Nat) (b' : β),
      O.moves b = pre ++ best :: post →
      levL (extractMoveNotation mv).data best.data = d → d ≤ 2 →
      (∀ p ∈ pre, d < levL (extractMoveNotation mv).data p.data) →
      (∀ q ∈ O.moves b, d ≤ levL (extractMoveNotation mv).data q.data) →
      O.applyMove b best = some b' →
      fuzzyMatchMove O b mv =
        ⟨true, best, true, mv, some (extractMoveNotation mv ++ " → " ++ best),
          some "levenshtein", some d, none, b'⟩) ∧
    ((∀ q ∈ O.moves b, 3 ≤ levL (extractMoveNotation mv).data q.data) →
      fuzzyMatchMove O b mv =
        ⟨false, extractMoveNotation mv, false, mv, none, none, none,
          some "No valid move found after fuzzy matching", b⟩) := by
  constructor
  · intro pre post best d b' hsplit hd hd2 hpre hmin happ
    have hpost : ∀ q ∈ post, d ≤ levL (extractMoveNotation mv).data q.data := by
      intro q hq
      refine hmin q ?_
      rw [hsplit]
      exact List.mem_append_right _ (List.mem_cons_of_mem _ hq)
    simp only [fuzzyMatchMove, validateMove_of_none h1, tryCandidates_none h2]
    rw [if_neg h3, hsplit, levScan_first hd hd2 hpre hpost]
    simp [happ]
  · intro hall
    have hf := fuzzyMatchMove_invalid_path h1 h2 hall
    rw [hf, if_neg h3]

/-- C5 (witness): token `"e3"` against the toy oracle — legal moves
`["d4", "e4"]` at distances 2 and 1; the minimum-distance move `e4` (the
first one attaining the minimum) is selected with distance 1. -/
theorem C5_levenshtein_selection_witness :
    fuzzyMatchMove chessToy 0 "e3" =
      ⟨true, "e4", true, "e3", some (extractMoveNotation "e3" ++ " → " ++ "e4"),
        some "levenshtein", some 1, none, 1⟩ := by
  exact (C5_levenshtein_selection chessToy 0 "e3" (by decide) (by decide) (by decide)).1
    ["d4"] [] "e4" 1 1 (by decide) (by decide) (by decide) (by decide) (by decide) (by decide)

/-- C6 (counterexample).  The claim says the Levenshtein stage stops
scanning at the first legal move found at distance exactly 1, comparing the
token against no later legal move — i.e. the number of `levenshtein.get`
calls would be the index of that first hit plus one.  The loop
(source lines 181-189) has no break: instrumenting it with a call counter
(`levScanInstr`, whose first component is provably the plain loop), a token
at distance 1 from the FIRST of three legal moves still incurs three
distance computations, not one. -/
theorem C6_counterexample :
    levL "eH".data "e4".data = 1 ∧
    levScan "eH".data ["e4", "e5", "Nf3"] = (some "e4", 1) ∧
    (levScanInstr "eH".data ["e4", "e5", "Nf3"]).1 = levScan "eH".data ["e4", "e5", "Nf3"] ∧
    (levScanInstr "eH".data ["e4", "e5", "Nf3"]).2 = 3 ∧
    (3 : Nat) ≠ 1 := by
  exact ⟨by decide, by decide, by decide, by decide, by decide⟩

/-- C6 (amended).  The first legal move at edit distance exactly 1 from the
normalized token is the move finally selected — no legal move scanned after
it can displace it, since displacement requires a strictly smaller distance
and distance 0 does not occur — but the engine still computes the distance
to every legal move: the loop has no early exit
(`levScanInstr` counts one distance computation per legal move). -/
theorem C6_first_distance_one {β : Type} (O : Oracle β) (b : β) (mv : String)
    (pre post : List String) (best : String) (b' : β)
    (h1 : O.applyMove b (extractMoveNotation (extractMoveNotation mv)) = none)
    (h2 : ∀ c ∈ generateFuzzyMatches (extractMoveNotation mv),
      c ≠ extractMoveNotation mv → O.applyMove b c = none)
    (hsplit : O.moves b = pre ++ best :: post)
    (hd : levL (extractMoveNotation mv).data best.data = 1)
    (hpre : ∀ p ∈ pre, levL (extractMoveNotation mv).data p.data ≠ 1)
    (hzero : ∀ q ∈ O.moves b, levL (extractMoveNotation mv).data q.data ≠ 0)
    (happ : O.applyMove b best = some b') :
    fuzzyMatchMove O b mv =
      ⟨true, best, true, mv, some (extractMoveNotation mv ++ " → " ++ best),
        some "levenshtein", some 1, none, b'⟩ ∧
    (levScanInstr (extractMoveNotation mv).data (O.moves b)).2 = (O.moves b).length := by
  refine ⟨?_, levScanInstr_count _ _⟩
  have h3 : O.moves b ≠ [] := by rw [hsplit]; simp
  have hpre' : ∀ p ∈ pre, 1 < levL (extractMoveNotation mv).data p.data := by
    intro p hp
    have hne1 := hpre p hp
    have hne0 : levL (extractMoveNotation mv).data p.data ≠ 0 := by
      refine hzero p ?_
      rw [hsplit]
      exact List.mem_append_left _ hp
    omega
  have hpost : ∀ q ∈ post, 1 ≤ levL (extractMoveNotation mv).data q.data := by
    intro q hq
    have := hzero q (by
      rw [hsplit]
      exact List.mem_append_right _ (List.mem_cons_of_mem _ hq))
    omega
  simp only [fuzzyMatchMove, validateMove_of_none h1, tryCandidates_none h2]
  rw [if_neg h3, hsplit, levScan_first hd (by omega) hpre' hpost]
  simp [happ]

/-- C6 (amended, witness): token `"e3"` against the toy oracle — `e4` is
the first (and only) distance-1 legal move and is selected, while the
instrumented loop still performs one distance computation per legal move
(two in total). -/
theorem C6_first_distance_one_witness :
    fuzzyMatchMove chessToy 0 "e3" =
      ⟨true, "e4", true, "e3", some (extractMoveNotation "e3" ++ " → " ++ "e4"),
        some "levenshtein", some 1, none, 1⟩ ∧
    (levScanInstr (extractMoveNotation "e3").data (chessToy.moves 0)).2
      = (chessToy.moves 0).length := by
  exact C6_first_distance_one chessToy 0 "e3" ["d4"] [] "e4" 1
    (by decide) (by decide) (by decide) (by decide) (by decide) (by decide) (by decide)

/-- C7.  Castling normalization via the pattern stage: when the oracle
rejects `o-o` (and the earlier-generated candidates `0-o`, `o-0`) but
accepts `0-0` — a position where kingside castling is legal under the
`0-0` notation — the token `"o-o"` is repaired to `"0-0"` with method
pattern-based, not levenshtein.  Moreover the candidate set always contains
the original token, every single-character OCR substitution, and the
whole-token castling rewrites `o-o→0-0`, `o-o-o→0-0-0` (in every letter
case) and `00→0-0`, `000→0-0-0`. -/
theorem C7_castling_normalization {β : Type} (O : Oracle β) (b : β) (b' : β)
    (hoo : O.applyMove b "o-o" = none)
    (h0o : O.applyMove b "0-o" = none)
    (ho0 : O.applyMove b "o-0" = none)
    (h00 : O.applyMove b "0-0" = some b') :
    (fuzzyMatchMove O b "o-o" =
      ⟨true, "0-0", true, "o-o", some ("o-o" ++ " → " ++ "0-0"),
        some "pattern-based", none, none, b'⟩) ∧
    (∀ mv : String, mv ∈ generateFuzzyMatches mv) ∧
    (∀ (mv : String) (i : Nat), i < mv.data.length →
      ∀ rep ∈ ocrSubs (mv.data.getD i ' '),
      (⟨setCharAt mv.data i rep⟩ : String) ∈ generateFuzzyMatches mv) ∧
    (∀ t ∈ (["o-o", "o-O", "O-o", "O-O"] : List String),
      "0-0" ∈ generateFuzzyMatches t) ∧
    (∀ t ∈ (["o-o-o", "o-o-O", "o-O-o", "o-O-O", "O-o-o", "O-o-O", "O-O-o", "O-O-O"] : List String),
      "0-0-0" ∈ generateFuzzyMatches t) ∧
    ("0-0" ∈ generateFuzzyMatches "00") ∧
    ("0-0-0" ∈ generateFuzzyMatches "000") := by
  refine ⟨?_, ?_, ?_, by decide, by decide, by decide, by decide⟩
  · have hmn : extractMoveNotation "o-o" = "o-o" := by decide
    have hv : O.applyMove b (extractMoveNotation "o-o") = none := by
      rw [hmn]
      exact hoo
    have hg : generateFuzzyMatches "o-o" = ["o-o", "0-o", "o-0", "0-0"] := by decide
    have htry : tryCandidates O b "o-o" ["o-o", "0-o", "o-0", "0-0"] = some ("0-0", b') := by
      rw [tryCandidates, if_pos rfl]
      rw [tryCandidates, if_neg (by decide)]
      rw [h0o]
      show tryCandidates O b "o-o" ["o-0", "0-0"] = some ("0-0", b')
      rw [tryCandidates, if_neg (by decide)]
      rw [ho0]
      show tryCandidates O b "o-o" ["0-0"] = some ("0-0", b')
      rw [tryCandidates, if_neg (by decide)]
      rw [h00]
    simp only [fuzzyMatchMove, hmn, validateMove_of_none hv, hg, htry]
    rfl
  · intro mv
    have h := List.mem_map_of_mem (fun l => (⟨l⟩ : String)) (gfmL_mem_self mv.data)
    cases mv
    exact h
  · intro mv i hi rep hr
    exact List.mem_map_of_mem (fun l => (⟨l⟩ : String)) (gfmL_mem_sub hi hr)

/-- C7 (witness): the pattern-stage conclusion at the concrete castling
oracle: `"o-o"` is repaired to `"0-0"` with method pattern-based. -/
theorem C7_castling_normalization_witness :
    fuzzyMatchMove castleToy 0 "o-o" =
      ⟨true, "0-0", true, "o-o", some ("o-o" ++ " → " ++ "0-0"),
        some "pattern-based", none, none, 1⟩ := by
  exact (C7_castling_normalization castleToy 0 1
    (by decide) (by decide) (by decide) (by decide)).1

/-- C10.  Whenever a token is repaired with method levenshtein, the
recorded distance is exactly 1 or 2 — never 0 — and the repaired move is
never string-identical to the normalized input token.  The hypotheses state
two facts true of chess.js: a move enumerated by `moves()` can be applied
(`hcoh`), and SAN notations never start with a digit (`hSAN`). -/
theorem C10_lev_distance {β : Type} (O : Oracle β) (b : β) (mv : String)
    (hcoh : ∀ q ∈ O.moves b, O.applyMove b q ≠ none)
    (hSAN : ∀ q ∈ O.moves b, ∀ c cs, q.data = c :: cs → isDigitC c = false)
    (hlev : (fuzzyMatchMove O b mv).method = some "levenshtein") :
    ((fuzzyMatchMove O b mv).distance = some 1 ∨
      (fuzzyMatchMove O b mv).distance = some 2) ∧
    (fuzzyMatchMove O b mv).move ≠ extractMoveNotation mv := by
  match hv : O.applyMove b (extractMoveNotation (extractMoveNotation mv)) with
  | some b1 =>
    have hres : fuzzyMatchMove O b mv =
        ⟨true, extractMoveNotation (extractMoveNotation mv), false, mv,
          none, none, none, none, b1⟩ := by
      simp only [fuzzyMatchMove, validateMove_of_some hv, if_true]
    rw [hres] at hlev
    exact absurd hlev (by simp)
  | none =>
  match ht : tryCandidates O b (extractMoveNotation mv)
      (generateFuzzyMatches (extractMoveNotation mv)) with
  | some (c0, b1) =>
    have hres : fuzzyMatchMove O b mv =
        ⟨true, c0, true, mv, some (extractMoveNotation mv ++ " → " ++ c0),
          some "pattern-based", none, none, b1⟩ := by
      simp only [fuzzyMatchMove, validateMove_of_none hv, ht]
      rfl
    rw [hres] at hlev
    replace hlev : some "pattern-based" = some "levenshtein" := hlev
    exact absurd hlev (by decide)
  | none =>
    by_cases hmb : O.moves b = []
    · have hres : fuzzyMatchMove O b mv =
          ⟨false, extractMoveNotation mv, false, mv, none, none, none,
            some "No legal moves available", b⟩ := by
        simp only [fuzzyMatchMove, validateMove_of_none hv, ht]
        rw [if_pos hmb]
        rfl
      rw [hres] at hlev
      exact absurd hlev (by simp)
    · match hs : levScan (extractMoveNotation mv).data (O.moves b) with
      | (some best, low) =>
        match ha : O.applyMove b best with
        | some b1 =>
          have hres : fuzzyMatchMove O b mv =
              ⟨true, best, true, mv,
                some (extractMoveNotation mv ++ " → " ++ best),
                some "levenshtein", some low, none, b1⟩ := by
            simp only [fuzzyMatchMove, validateMove_of_none hv, ht, if_neg hmb, hs, ha]
            rfl
          have hchar := levScan_char (by unfold levScan at hs; exact hs)
          rcases hchar with hacc | ⟨hmem, hlow, hle⟩
          · exact absurd hacc (by simp)
          · have hne : best ≠ extractMoveNotation mv := by
              intro heq
              by_cases hdig : ∀ c cs, (extractMoveNotation mv).data = c :: cs →
                  isDigitC c = false
              · have hidem := extractMoveNotation_idem hdig
                rw [hidem] at hv
                exact hcoh best hmem (heq ▸ hv)
              · push_neg at hdig
                obtain ⟨c, cs, hdata, hc⟩ := hdig
                exact hc (hSAN best hmem c cs (by rw [heq, hdata]))
            have hne0 : low ≠ 0 := by
              intro h0
              apply hne
              apply string_data_eq
              have hz : levL (extractMoveNotation mv).data best.data = 0 := by omega
              exact (levL_eq_zero hz).symm
            constructor
            · rw [hres]
              show some low = some 1 ∨ some low = some 2
              have : low = 1 ∨ low = 2 := by omega
              rcases this with rfl | rfl
              · exact Or.inl rfl
              · exact Or.inr rfl
            · rw [hres]
              exact hne
        | none =>
          have hres : fuzzyMatchMove O b mv =
              ⟨false, extractMoveNotation mv, false, mv, none, none, none,
                some "No valid move found after fuzzy matching", b⟩ := by
            simp only [fuzzyMatchMove, validateMove_of_none hv, ht, if_neg hmb, hs, ha]
            rfl
          rw [hres] at hlev
          exact absurd hlev (by simp)
      | (none, low) =>
        have hres : fuzzyMatchMove O b mv =
            ⟨false, extractMoveNotation mv, false, mv, none, none, none,
              some "No valid move found after fuzzy matching", b⟩ := by
          simp only [fuzzyMatchMove, validateMove_of_none hv, ht, if_neg hmb, hs]
          rfl
        rw [hres] at hlev
        exact absurd hlev (by simp)

/-- C10 (witness): the levenshtein repair of `"e3"` to `"e4"` carries
distance 1 and changes the token. -/
theorem C10_lev_distance_witness :
    ((fuzzyMatchMove chessToy 0 "e3").distance = some 1 ∨
      (fuzzyMatchMove chessToy 0 "e3").distance = some 2) ∧
    (fuzzyMatchMove chessToy 0 "e3").move ≠ extractMoveNotation "e3" := by
  refine C10_lev_distance chessToy 0 "e3" (by decide) ?_ (by decide)
  intro q hq c cs hdata
  rcases List.mem_cons.mp hq with rfl | hq
  · have h2 : c = 'd' := by
      have hl : (['d', '4'] : List Char) = c :: cs := hdata
      exact ((List.cons.injEq .. ▸ hl).1).symm
    rw [h2]
    decide
  rcases List.mem_cons.mp hq with rfl | hq
  · have h2 : c = 'e' := by
      have hl : (['e', '4'] : List Char) = c :: cs := hdata
      exact ((List.cons.injEq .. ▸ hl).1).symm
    rw [h2]
    decide
  · exact absurd hq (by simp)

/-- Characters of a trimmed string are characters of the original. -/
theorem trimChars_subset {l : List Char} : ∀ x ∈ trimChars l, x ∈ l := by
  intro x hx
  unfold trimChars at hx
  have h1 := List.mem_reverse.mp hx
  have h2 := List.dropWhile_subset _ h1
  have h3 := List.mem_reverse.mp h2
  exact List.dropWhile_subset _ h3

/-- C8 (counterexample).  The Lambda extractor `extractMovesFromBlocks`
does NOT strip the move-number prefix from a numbered row: on the single
cell `"1. e4 e5"` (whose row text matches the numbered-move pattern) it
emits the bare move-number token `"1."`. -/
theorem C8_counterexample :
    extractMovesFromBlocks (some [{ BlockType := "CELL", Text := some "1. e4 e5", RowIndex := some 1, ColumnIndex := some 1 }])
      = ["1.", "e4", "e5"] ∧
    "1." ∈ extractMovesFromBlocks (some [{ BlockType := "CELL", Text := some "1. e4 e5", RowIndex := some 1, ColumnIndex := some 1 }]) ∧
    scanNumbered "1. e4 e5".data ≠ [] := by
  exact ⟨by decide, by decide, by decide⟩

/-- C8 (amended).  In the parser.ts extractor (`extractMovesFromTable`),
the numbered-row branch strips the leading `<number>.` prefix from every
match before splitting on whitespace: each emitted token is non-empty and
dot-free, so no emitted token of this branch is a bare move-number prefix
such as `"1."`; and when the row text matches the numbered pattern,
`processRow` emits exactly the stripped-and-split parts of the matches.
(The Lambda extractor `extractMovesFromBlocks` instead pushes the parts
unstripped — see the counterexample.) -/
theorem C8_numbered_strip {s m tok : List Char}
    (hm : m ∈ scanNumbered s) (ht : tok ∈ numberedParts m) :
    tok ≠ [] ∧ '.' ∉ tok ∧ (∀ ds : List Char, tok ≠ ds ++ ['.']) ∧
    (∀ (rowText : List Char) (rowCells : List Block), scanNumbered rowText ≠ [] →
      processRow rowText rowCells = (scanNumbered rowText).flatMap numberedParts) := by
  obtain ⟨s', r, hmatch⟩ := scanNumbered_mem hm
  obtain ⟨-, -, hdot⟩ := matchNumAt_spec hmatch
  unfold numberedParts at ht
  have htw : tok ∈ wordsWs (trimChars (stripLeadingNum m)) := List.mem_of_mem_filter ht
  have hne : tok ≠ [] := wordsWs_ne_nil htw
  have hnd : '.' ∉ tok := by
    intro hx
    have h1 := wordsWs_mem_subset htw '.' hx
    exact hdot (trimChars_subset '.' h1)
  refine ⟨hne, hnd, ?_, ?_⟩
  · intro ds habs
    apply hnd
    rw [habs]
    simp
  · intro rowText rowCells hscan
    unfold processRow
    rw [if_pos]
    simp [hscan]

/-- C8 (amended, witness): the match `"1. e4 e5"` of its own row text
yields the stripped tokens; `"e4"` is one of them, non-empty and dot-free. -/
theorem C8_numbered_strip_witness :
    ("e4".data ≠ [] ∧ '.' ∉ "e4".data ∧ (∀ ds : List Char, "e4".data ≠ ds ++ ['.']) ∧
    (∀ (rowText : List Char) (rowCells : List Block), scanNumbered rowText ≠ [] →
      processRow rowText rowCells = (scanNumbered rowText).flatMap numberedParts)) := by
  exact C8_numbered_strip (s := "1. e4 e5".data) (m := "1. e4 e5".data)
    (by decide) (by decide)

/-- C9.  Extractor totality: both extractors are total functions; on an
absent block list, an empty block list, or any block list with no cell that
passes the cell filter (no CELL blocks, no text, header-only rows are a
special case of the row loop), they return the empty token list rather than
failing. -/
theorem C9_extractor_totality :
    extractMovesFromBlocks none = [] ∧
    extractMovesFromBlocks (some []) = [] ∧
    (∀ bs : List Block, (∀ b ∈ bs, cellFilterB b = false) →
      extractMovesFromBlocks (some bs) = []) ∧
    extractMovesFromTable [] = [] ∧
    (∀ bs : List Block, (∀ b ∈ bs, tableCellFilter b = false) →
      extractMovesFromTable bs = []) := by
  refine ⟨by decide, by decide, ?_, by decide, ?_⟩
  · intro bs h
    have hf : bs.filter cellFilterB = [] := by
      rw [List.filter_eq_nil_iff]
      intro a ha
      rw [h a ha]
      simp
    unfold extractMovesFromBlocks extractMovesFromBlocksL
    rw [Option.getD_some, hf]
    rfl
  · intro bs h
    have hf : bs.filter tableCellFilter = [] := by
      rw [List.filter_eq_nil_iff]
      intro a ha
      rw [h a ha]
      simp
    unfold extractMovesFromTable extractMovesFromTableL
    rw [hf]
    rfl

/-- C9 (witness): a block list with only a non-CELL block extracts no
tokens under both extractors. -/
theorem C9_extractor_totality_witness :
    extractMovesFromBlocks (some [{ BlockType := "WORD", Text := some "1. e4" }]) = [] ∧
    extractMovesFromTable [{ BlockType := "WORD", Text := some "1. e4" }] = [] := by
  obtain ⟨-, -, h3, -, h5⟩ := C9_extractor_totality
  exact ⟨h3 [{ BlockType := "WORD", Text := some "1. e4" }] (by decide),
    h5 [{ BlockType := "WORD", Text := some "1. e4" }] (by decide)⟩

end Chess2Pgn
